import Mathlib

/-!
# lit: a shallow embedding of the object store, tree codec, index and HEAD machinery

Go strings are modelled as lists of characters, byte slices as lists of
natural numbers below 256, Go maps as association lists whose list order is
the order in which a `range` loop visits the entries.  Where Go slices or
compares a string by bytes (`hash[:2]`), the bytes are those of the UTF-8
encoding `utf8`.  The SHA-256 digest (already hex formatted, as
`fmt.Sprintf("%2x", sha256.Sum256(..))` prints it) is a parameter `sha` of
every definition that hashes.  A Go panic is a fault of its own
(`Fault.panicSlice`, `Fault.panicState`); it propagates through every caller,
also through callers that drop a returned error.  Disk operations are assumed
not to fail for reasons outside the modelled state (permissions, full disk).

The state holds the working directory, the index, HEAD, the files of
`.lit/refs/heads` and the files of `.lit/objects`.  A call whose path leads
elsewhere (a branch name with a slash, which `os.Stat` follows into other
directories, a slice of a hash cut inside a rune), or that needs the case
mapping of letters other than ASCII, ends in `Fault.outside`: the model makes
no statement about such a call.
-/

namespace Lit

/-! ## Strings, bytes and maps -/

abbrev Str := List Char
abbrev Bytes := List Nat

/-- UTF-8 encoding of one rune, the bytes a Go string holds for it. -/
def utf8EncodeRune (c : Char) : Bytes :=
  let n := c.toNat
  if n < 0x80 then [n]
  else if n < 0x800 then [0xC0 + n / 64, 0x80 + n % 64]
  else if n < 0x10000 then [0xE0 + n / 4096, 0x80 + (n / 64) % 64, 0x80 + n % 64]
  else [0xF0 + n / 262144, 0x80 + (n / 4096) % 64, 0x80 + (n / 64) % 64, 0x80 + n % 64]

/-- The conversion `[]byte(s)` of a string of runes. -/
def utf8 : Str → Bytes
  | [] => []
  | c :: cs => utf8EncodeRune c ++ utf8 cs

/-- A Go `map[string]V`; the list order is the iteration order of `range`. -/
abbrev GoMap (V : Type) := List (Str × V)

namespace GoMap

variable {V : Type}

/-- The lookup `m[k]` with its presence flag. -/
def get : GoMap V → Str → Option V
  | [], _ => none
  | (k0, v) :: m, k => if k0 = k then some v else get m k

/-- The assignment `m[k] = v`. -/
def set : GoMap V → Str → V → GoMap V
  | [], k, v => [(k, v)]
  | (k0, v0) :: m, k, v => if k0 = k then (k, v) :: m else (k0, v0) :: set m k v

/-- The builtin `delete(m, k)`. -/
def delete : GoMap V → Str → GoMap V
  | [], _ => []
  | (k0, v) :: m, k => if k0 = k then delete m k else (k0, v) :: delete m k

/-- The keys, in iteration order. -/
def keys (m : GoMap V) : List Str := m.map Prod.fst

end GoMap

/-! ## Errors and panics -/

/-- The error values the program creates. -/
inductive Err where
  | refsNotFound          -- refs.ErrNotFound, "could not find location"
  | refsCouldNotRead      -- refs.ErrCouldNotRead, "could not read"
  | objNotOfType          -- objects.ErrNotOfType
  | objCouldNotRead       -- objects.ErrCouldNotRead
  | uncommittedChanges    -- errors.New("uncommitted changes")
  | noCommitWithHash      -- errors.New("couldn't find commit with hash")
  | fileDoesNotExist      -- errors.New("file does not exist")
  | couldNotWriteObjects  -- errors.New("couldn't write files to objects")
  | failedToWriteCommit   -- errors.New("failed to write commit")
  | branchExists          -- errors.New("branch already exists")
  | notCommitHash         -- fmt.Errorf("%s is not the hash of a commit", hash)
  | alreadyRepo           -- errors.New("already a lit repository")
  | initFileCreation      -- ErrInitFileCreation
  | os                    -- an error of the os package (not a file, not a directory ...)
  deriving DecidableEq, Repr

/-- What stops a call: a returned error, or a panic that unwinds the program. -/
inductive Fault where
  | err (e : Err)
  | panicSlice            -- slice bounds out of range
  | panicState            -- panic(state) in satisfyUnstagedChanges
  | diverge               -- a recursion without end
  | outside               -- the call uses a path the state of the model does not describe
  deriving DecidableEq, Repr

abbrev Res (α : Type) := Except Fault α

/-! ## Path helpers of the Go library -/

/-- The call `strings.Split(s, "/")`. -/
def splitSlash : Str → List Str
  | [] => [[]]
  | c :: cs =>
    match splitSlash cs with
    | [] => if c = '/' then [[], []] else [[c]]
    | seg :: rest => if c = '/' then [] :: seg :: rest else (c :: seg) :: rest

/-- The call `path.Split(p)`: the part up to and including the last slash, and the rest. -/
def pathSplit : Str → Str × Str
  | [] => ([], [])
  | c :: cs =>
    let r := pathSplit cs
    if r.1 ≠ [] then (c :: r.1, r.2)
    else if c = '/' then ([c], r.2)
    else ([], c :: r.2)

/-- The call `strings.TrimSuffix(s, "/")`. -/
def trimSuffixSlash (s : Str) : Str :=
  if s.getLast? = some '/' then s.dropLast else s

/-! ## Objects -/

def FolderCharacters : Nat := 2

structure TreeEntry where
  ObjType : Str
  Hash : Str
  deriving DecidableEq, Repr

structure Commit where
  Name : Str
  CommitTree : Str
  Parents : List Str
  Time : Nat
  deriving DecidableEq, Repr

/-- A decoded object file: the tagged envelope with its type specific fields. -/
inductive Object where
  | blob (content : Str)
  | tree (entries : GoMap TreeEntry)
  | commit (c : Commit)
  deriving DecidableEq, Repr

/-- The files under `.lit/objects`, keyed by the path `GetHashPath` builds. -/
abbrev Store := GoMap Object

/-- The slices `hash[:2]` and `hash[2:]` of a hash of two bytes or more, when
the cut after the second byte falls between two runes: behind two runes of one
byte, or behind one rune of two bytes.  A cut inside a rune leaves two byte
strings that are not valid UTF-8, which the strings of this model cannot hold. -/
def sliceAtFolder : Str → Option (Str × Str)
  | [] => none
  | c0 :: rest =>
    if c0.toNat < 0x80 then
      match rest with
      | c1 :: rest1 => if c1.toNat < 0x80 then some ([c0, c1], rest1) else none
      | [] => none
    else if c0.toNat < 0x800 then some ([c0], rest)
    else none

/-- GetHashPath: `hash[:2]` and `hash[2:]` panic on a hash shorter than two bytes. -/
def GetHashPath (hash : Str) : Res Str :=
  if (utf8 hash).length < FolderCharacters then .error .panicSlice
  else
    match sliceAtFolder hash with
    | none => .error .outside
    | some (folder, file) => .ok (".lit/objects/".toList ++ folder ++ "/".toList ++ file)

/-- The string HashTree feeds to SHA-256 when the entries are visited in the given order. -/
def treeHashInput : List (Str × TreeEntry) → Str
  | [] => []
  | (name, entry) :: rest =>
    name ++ entry.ObjType ++ entry.Hash ++ "\n".toList ++ treeHashInput rest

/-- HashTree; `ord` gives the order in which `range entries` visits the map. -/
def HashTree (sha : Bytes → Str) (ord : GoMap TreeEntry → GoMap TreeEntry)
    (entries : GoMap TreeEntry) : Str :=
  sha (utf8 (treeHashInput (ord entries)))

/-- WriteTree: hash the entries and store the tree object under the hash. -/
def WriteTree (sha : Bytes → Str) (ord : GoMap TreeEntry → GoMap TreeEntry)
    (entries : GoMap TreeEntry) (st : Store) : Res (Str × Store) :=
  let hash := HashTree sha ord entries
  match GetHashPath hash with
  | .error f => .error f
  | .ok p => .ok (hash, st.set p (.tree entries))

/-- ReadAsTree. -/
def ReadAsTree (st : Store) (hash : Str) : Res (GoMap TreeEntry) :=
  match GetHashPath hash with
  | .error f => .error f
  | .ok p =>
    match st.get p with
    | none => .error (.err .objCouldNotRead)
    | some (.tree entries) => .ok entries
    | some _ => .error (.err .objNotOfType)

/-! ## Tree codec -/

/-- The struct treeNode: subtrees by directory name, blobs by file name. -/
inductive treeNode where
  | mk (subtrees : List (Str × treeNode)) (blobs : GoMap Str)
  deriving Repr

def newTreeNode : treeNode := .mk [] []

/-- The assignment `subtrees[k] = v` on the subtree map of a node. -/
def setSubtree : List (Str × treeNode) → Str → treeNode → List (Str × treeNode)
  | [], k, v => [(k, v)]
  | (k0, v0) :: m, k, v => if k0 = k then (k, v) :: m else (k0, v0) :: setSubtree m k v

/-- The body of the loop of generateTreeNode for one path: every directory
segment is assigned a fresh node (`currentTree.subtrees[subdir] = newTreeN`),
whatever was stored there before, and the blob goes into the last fresh node. -/
def insertPath : List Str → Str → Str → treeNode → treeNode
  | [], base, hash, .mk subtrees blobs => .mk subtrees (blobs.set base hash)
  | subdir :: rest, base, hash, .mk subtrees blobs =>
    .mk (setSubtree subtrees subdir (insertPath rest base hash newTreeNode)) blobs

/-- generateTreeNode; the list order of `hashes` is the order of the range loop. -/
def generateTreeNode (hashes : GoMap Str) : treeNode :=
  hashes.foldl (fun rootTree e =>
    let sp := pathSplit e.1
    let dir := trimSuffixSlash sp.1
    if dir ≠ [] then insertPath (splitSlash dir) sp.2 e.2 rootTree
    else insertPath [] sp.2 e.2 rootTree) newTreeNode

mutual
/-- The method treeNode.Write: subtrees first, then blobs, then WriteTree. -/
def treeNode.Write (sha : Bytes → Str) (ord : GoMap TreeEntry → GoMap TreeEntry) :
    treeNode → Store → Res (Str × Store)
  | .mk subtrees blobs, st =>
    match writeSubtrees sha ord subtrees [] st with
    | .error f => .error f
    | .ok (hashes, st1) =>
      WriteTree sha ord
        (blobs.foldl (fun h e => h.set e.1 { ObjType := "Blob".toList, Hash := e.2 }) hashes) st1
/-- The first loop of Write, over the subtrees. -/
def writeSubtrees (sha : Bytes → Str) (ord : GoMap TreeEntry → GoMap TreeEntry) :
    List (Str × treeNode) → GoMap TreeEntry → Store → Res (GoMap TreeEntry × Store)
  | [], hashes, st => .ok (hashes, st)
  | (name, sub) :: rest, hashes, st =>
    match treeNode.Write sha ord sub st with
    | .error f => .error f
    | .ok (h, st1) =>
      writeSubtrees sha ord rest (hashes.set name { ObjType := "Tree".toList, Hash := h }) st1
end

/-- The loop of recursivelyGetHashes over the entries of one tree; `recurse` is
the recursive call.  The result map is shared with the caller, so it is
returned together with the error. -/
def getHashesLoop (recurse : Str → GoMap Str → Str → GoMap Str × Option Fault)
    (basePath : Str) : List (Str × TreeEntry) → GoMap Str → GoMap Str × Option Fault
  | [], result => (result, none)
  | (name, entry) :: rest, result =>
    if entry.ObjType = "Tree".toList then
      match recurse entry.Hash result (basePath ++ name ++ "/".toList) with
      | (result1, some f) => (result1, some f)
      | (result1, none) => getHashesLoop recurse basePath rest result1
    else getHashesLoop recurse basePath rest (result.set (basePath ++ name) entry.Hash)

/-- recursivelyGetHashes, with a bound on the depth of the recursion: at depth
zero the call is cut with the fault `diverge`.  Callers pass `depthBound`, which
only a store with a cycle of trees exceeds, where the Go recursion has no end. -/
def recursivelyGetHashes (st : Store) : Nat → Str → GoMap Str → Str → GoMap Str × Option Fault
  | 0, _, result, _ => (result, some .diverge)
  | fuel + 1, hash, result, basePath =>
    match ReadAsTree st hash with
    | .error f => (result, some f)
    | .ok tree => getHashesLoop (recursivelyGetHashes st fuel) basePath tree result

/-- The recursion depth no acyclic store needs more than: one call per stored object, plus one. -/
def depthBound (st : Store) : Nat := st.length + 1

/-! ## The working directory -/

/-- The steps of `path.Clean` over the slash separated elements: `out` is the
stack of real elements kept so far (last first), `ups` the number of leading
`..` elements that could not be resolved. -/
def cleanElems (rooted : Bool) : List Str → List Str → Nat → List Str × Nat
  | [], out, ups => (out, ups)
  | e :: rest, out, ups =>
    if e = [] ∨ e = ".".toList then cleanElems rooted rest out ups
    else if e = "..".toList then
      match out with
      | _ :: out1 => cleanElems rooted rest out1 ups
      | [] => if rooted then cleanElems rooted rest [] ups
              else cleanElems rooted rest [] (ups + 1)
    else cleanElems rooted rest (e :: out) ups

/-- The call `strings.Join(elems, "/")`. -/
def joinSlash : List Str → Str
  | [] => []
  | [e] => e
  | e :: rest => e ++ "/".toList ++ joinSlash rest

/-- CleanPath: `path.Clean(filepath.ToSlash(p))`, on a system whose separator is the slash. -/
def CleanPath (p : Str) : Str :=
  if p = [] then ".".toList
  else
    let rooted := p.head? = some '/'
    let r := cleanElems rooted (splitSlash p) [] 0
    let body := joinSlash (List.replicate r.2 "..".toList ++ r.1.reverse)
    if rooted then '/' :: body
    else if body = [] then ".".toList
    else body

/-- A node of the working directory: a regular file with its bytes, or a
directory with its entries in the order `os.ReadDir` lists them. -/
inductive Node where
  | file (data : Bytes)
  | dir (entries : List (Str × Node))
  deriving Repr

/-- The path `filepath.Join(dir, name)` that WalkDir hands to its callback for an entry. -/
def joinPath (dir name : Str) : Str :=
  if dir = ".".toList then name else dir ++ "/".toList ++ name

/-- The set type `set.Set[string]`, a `map[string]bool`. -/
abbrev StrSet := GoMap Bool

/-- FromSlice of package set. -/
def FromSlice (slc : List Str) : StrSet :=
  slc.foldl (fun s item => s.set item true) []

mutual
/-- The visit of one path by `filepath.WalkDir` under the callback of
ClearWorkingTree.  The value is the node left on disk (`none` once
`os.RemoveAll(path)` ran) and whether `filepath.SkipDir` reaches the walk of
the parent directory, which then leaves the remaining entries unvisited. -/
def clearWalk (leaveAlone : StrSet) (path : Str) : Node → Option Node × Bool
  | .file data =>
    if CleanPath path = ".".toList then (some (.file data), false)
    else if CleanPath path = ".lit".toList then (some (.file data), true)
    else if (leaveAlone.get path).isNone then (none, false)
    else (some (.file data), false)
  | .dir entries =>
    if CleanPath path = ".".toList then (some (.dir (clearEntries leaveAlone path entries)), false)
    else if CleanPath path = ".lit".toList then (some (.dir entries), false)
    else if (leaveAlone.get path).isNone then (none, false)
    else (some (.dir (clearEntries leaveAlone path entries)), false)
/-- The loop of WalkDir over the entries of the directory `dir`. -/
def clearEntries (leaveAlone : StrSet) (dir : Str) : List (Str × Node) → List (Str × Node)
  | [] => []
  | (name, n) :: rest =>
    match clearWalk leaveAlone (joinPath dir name) n with
    | (some n1, true) => (name, n1) :: rest
    | (none, true) => rest
    | (some n1, false) => (name, n1) :: clearEntries leaveAlone dir rest
    | (none, false) => clearEntries leaveAlone dir rest
end

/-- ClearWorkingTree: the walk starts at "." whose entries are `root`. -/
def ClearWorkingTree (leaveAlone : StrSet) (root : List (Str × Node)) : List (Str × Node) :=
  match clearWalk leaveAlone ".".toList (.dir root) with
  | (some (.dir entries), _) => entries
  | _ => []

mutual
/-- The regular files below a node, with the paths WalkDir gives them. -/
def Node.files (path : Str) : Node → List (Str × Bytes)
  | .file data => [(path, data)]
  | .dir entries => filesOf path entries
/-- The regular files below the entries of the directory `dir`. -/
def filesOf (dir : Str) : List (Str × Node) → List (Str × Bytes)
  | [] => []
  | (name, n) :: rest => Node.files (joinPath dir name) n ++ filesOf dir rest
end

/-- An injective stand-in for the digest, to run the definitions on concrete inputs. -/
def demoSha (b : Bytes) : Str := 'h' :: ':' :: b.map Char.ofNat

/-! ## JSON strings

`json.Marshal` coerces a Go string to valid UTF-8 (every byte that does not
start a well formed encoding becomes U+FFFD) and `json.Unmarshal` reads the
text back, so what a string field holds after a write and a read is the
sequence of runes `utf8.DecodeRune` finds in the bytes. -/

/-- The rune U+FFFD, `utf8.RuneError`. -/
def RuneError : Char := Char.ofNat 0xFFFD

/-- A continuation byte, 0x80 to 0xBF. -/
def isCont (b : Nat) : Bool := decide (0x80 ≤ b) && decide (b ≤ 0xBF)

/-- The call `utf8.DecodeRune(p)`: the first rune and its width in bytes;
`(RuneError, 1)` when the bytes do not start a well formed encoding
(over-long forms, surrogates and values above U+10FFFF are not well formed). -/
def DecodeRune : Bytes → Char × Nat
  | [] => (RuneError, 0)
  | b0 :: rest =>
    if b0 < 0x80 then (Char.ofNat b0, 1)
    else if 0xC2 ≤ b0 ∧ b0 ≤ 0xDF then
      match rest with
      | b1 :: _ =>
        if isCont b1 then (Char.ofNat ((b0 - 0xC0) * 64 + (b1 - 0x80)), 2) else (RuneError, 1)
      | _ => (RuneError, 1)
    else if 0xE0 ≤ b0 ∧ b0 ≤ 0xEF then
      match rest with
      | b1 :: b2 :: _ =>
        if (if b0 = 0xE0 then decide (0xA0 ≤ b1) && decide (b1 ≤ 0xBF)
            else if b0 = 0xED then decide (0x80 ≤ b1) && decide (b1 ≤ 0x9F)
            else isCont b1) && isCont b2 then
          (Char.ofNat ((b0 - 0xE0) * 4096 + (b1 - 0x80) * 64 + (b2 - 0x80)), 3)
        else (RuneError, 1)
      | _ => (RuneError, 1)
    else if 0xF0 ≤ b0 ∧ b0 ≤ 0xF4 then
      match rest with
      | b1 :: b2 :: b3 :: _ =>
        if (if b0 = 0xF0 then decide (0x90 ≤ b1) && decide (b1 ≤ 0xBF)
            else if b0 = 0xF4 then decide (0x80 ≤ b1) && decide (b1 ≤ 0x8F)
            else isCont b1) && isCont b2 && isCont b3 then
          (Char.ofNat ((b0 - 0xF0) * 262144 + (b1 - 0x80) * 4096 + (b2 - 0x80) * 64
            + (b3 - 0x80)), 4)
        else (RuneError, 1)
      | _ => (RuneError, 1)
    else (RuneError, 1)

/-- The runes of a byte string, read front to back with DecodeRune; `skip`
counts the bytes still covered by the rune decoded last. -/
def decodeFrom : Nat → Bytes → Str
  | _, [] => []
  | skip + 1, _ :: rest => decodeFrom skip rest
  | 0, b :: rest => (DecodeRune (b :: rest)).1 :: decodeFrom ((DecodeRune (b :: rest)).2 - 1) rest

/-- The value of a string field after `json.Marshal` and `json.Unmarshal`. -/
def jsonString (data : Bytes) : Str := decodeFrom 0 data

/-! ## Blobs and commits in the object store -/

/-- Hash of package objects: the digest of the bytes. -/
def Hash (sha : Bytes → Str) (data : Bytes) : Str := sha data

/-- WriteBlob: the envelope of type "Blob" is written to the path of the hash;
`hash[:FolderCharacters]` panics on a hash shorter than two characters. -/
def WriteBlob (sha : Bytes → Str) (data : Bytes) (st : Store) : Res (Str × Store) :=
  let hash := Hash sha data
  match GetHashPath hash with
  | .error f => .error f
  | .ok p => .ok (hash, st.set p (.blob (jsonString data)))

/-- ReadAsBlob: the Content field of the envelope, a Go string. -/
def ReadAsBlob (st : Store) (hash : Str) : Res Str :=
  match GetHashPath hash with
  | .error f => .error f
  | .ok p =>
    match st.get p with
    | none => .error (.err .objCouldNotRead)
    | some (.blob content) => .ok content
    | some _ => .error (.err .objNotOfType)

/-- ReadAsCommit. -/
def ReadAsCommit (st : Store) (hash : Str) : Res Commit :=
  match GetHashPath hash with
  | .error f => .error f
  | .ok p =>
    match st.get p with
    | none => .error (.err .objCouldNotRead)
    | some (.commit c) => .ok c
    | some _ => .error (.err .objNotOfType)

/-- HashIsCommit: whether ReadAsCommit returns no error. -/
def HashIsCommit (st : Store) (hash : Str) : Res Bool :=
  match ReadAsCommit st hash with
  | .ok _ => .ok true
  | .error (.err _) => .ok false
  | .error f => .error f

/-! ## The repository state -/

/-- HeadContent: the content of `.lit/HEAD`. -/
structure HeadContent where
  Detached : Bool
  Location : Str
  deriving DecidableEq, Repr

/-- A directory that holds a repository.  `root` lists the entries of the
directory other than `.lit`; the other fields are the files under `.lit`:
`index` and `head` are `none` when the file is missing, `heads` maps the file
names under `.lit/refs/heads` to the Reference they store (a directory below
`heads`, which only a branch name with a slash creates, is not described),
`headsDir` tells whether the directory `.lit/refs/heads` exists (it is only
ever removed while it is empty), `objects` is the object store. -/
structure Repo where
  root : List (Str × Node)
  index : Option (GoMap Str)
  head : Option HeadContent
  heads : GoMap Str
  objects : Store
  headsDir : Bool := true

/-! ## refs: HEAD and branches -/

/-- ReadHead. -/
def ReadHead (s : Repo) : Res HeadContent :=
  match s.head with
  | none => .error (.err .refsCouldNotRead)
  | some hc => .ok hc

/-- What the path `.lit/refs/heads/` + name names. -/
inductive RefTarget where
  | heads     -- the empty name: the directory `heads` itself
  | dots      -- "." or "..": the directory `heads` or its parent, reached through `heads`
  | entry     -- a file name: an entry of the directory `heads`
  | outside   -- a name with a slash or a NUL byte, or one longer than a file name can be
  deriving DecidableEq, Repr

/-- The kind of path a branch name gives.  `os.Stat`, `os.ReadFile`,
`os.WriteFile` and `os.Remove` follow the path: a name with a slash leads into
other directories and is left aside, and so is a name the file system refuses
(a NUL byte, more than 255 bytes). -/
def refTarget (name : Str) : RefTarget :=
  if name = [] then .heads
  else if name = ".".toList ∨ name = "..".toList then .dots
  else if '/' ∈ name ∨ Char.ofNat 0 ∈ name ∨ 255 < (utf8 name).length then .outside
  else .entry

/-- BranchExists: whether `os.Stat(".lit/refs/heads/" + name)` succeeds.  With
the empty name, "." or ".." the path names a directory, which exists when
`heads` does. -/
def BranchExists (s : Repo) (name : Str) : Res Bool :=
  match refTarget name with
  | .outside => .error .outside
  | .entry => .ok (s.heads.get name).isSome
  | _ => .ok s.headsDir

/-- ReadBranch; `os.ReadFile` on a directory is an error of `os`. -/
def ReadBranch (s : Repo) (name : Str) : Res Str :=
  match BranchExists s name with
  | .error f => .error f
  | .ok false => .error (.err .refsNotFound)
  | .ok true =>
    match refTarget name, s.heads.get name with
    | .entry, some reference => .ok reference
    | _, _ => .error (.err .os)

/-- HeadCommit. -/
def HeadCommit (s : Repo) : Res Str :=
  match ReadHead s with
  | .error f => .error f
  | .ok hc =>
    if hc.Location = [] then .ok []
    else if hc.Detached then .ok hc.Location
    else
      match ReadBranch s hc.Location with
      | .error f => .error f
      | .ok hash => .ok hash

/-- SetHeadTo: the result and the repository after the call.  The source turns
an error of BranchExists into ErrNotFound; the only failure of BranchExists in
this model is `outside`, which is passed on as it is. -/
def SetHeadTo (hc : HeadContent) (s : Repo) : Res Unit × Repo :=
  if hc.Detached then
    match HashIsCommit s.objects hc.Location with
    | .error f => (.error f, s)
    | .ok false => (.error (.err .refsNotFound), s)
    | .ok true => (.ok (), { s with head := some hc })
  else
    match BranchExists s hc.Location with
    | .error f => (.error f, s)
    | .ok false => (.error (.err .refsNotFound), s)
    | .ok true => (.ok (), { s with head := some hc })

/-! ## File operations on the working directory -/

/-- Byte order of two names, the order in which `os.ReadDir` lists entries. -/
def strLt : Str → Str → Bool
  | [], [] => false
  | [], _ :: _ => true
  | _ :: _, [] => false
  | a :: as, b :: bs =>
    if a.toNat < b.toNat then true
    else if b.toNat < a.toNat then false
    else strLt as bs

/-- The entry called `name` of a directory. -/
def lookupEntry : List (Str × Node) → Str → Option Node
  | [], _ => none
  | (k0, v) :: m, k => if k0 = k then some v else lookupEntry m k

/-- Replace the entry called `name`. -/
def replaceEntry : List (Str × Node) → Str → Node → List (Str × Node)
  | [], _, _ => []
  | (k0, v0) :: m, k, v => if k0 = k then (k, v) :: m else (k0, v0) :: replaceEntry m k v

/-- Add a new entry at its place in the listing. -/
def insertEntry : List (Str × Node) → Str → Node → List (Str × Node)
  | [], k, v => [(k, v)]
  | (k0, v0) :: m, k, v =>
    if strLt k k0 then (k, v) :: (k0, v0) :: m else (k0, v0) :: insertEntry m k v

/-- Create or replace the entry called `name`. -/
def putEntry (m : List (Str × Node)) (k : Str) (v : Node) : List (Str × Node) :=
  if (lookupEntry m k).isSome then replaceEntry m k v else insertEntry m k v

/-- The elements of a path relative to the working directory; `none` for a
path that leaves the directory or enters `.lit`, which this model does not follow. -/
def pathElems (path : Str) : Option (List Str) :=
  let c := CleanPath path
  if c = ".".toList then some []
  else if c.head? = some '/' then none
  else if (splitSlash c).head? = some "..".toList ∨ (splitSlash c).head? = some ".lit".toList
  then none
  else some (splitSlash c)

/-- The walk of `os.MkdirAll` along the elements of a path; `none` when an element is a file. -/
def mkdirElems : List Str → List (Str × Node) → Option (List (Str × Node))
  | [], entries => some entries
  | name :: rest, entries =>
    match lookupEntry entries name with
    | some (.file _) => none
    | some (.dir sub) => (mkdirElems rest sub).map (fun sub1 => replaceEntry entries name (.dir sub1))
    | none => (mkdirElems rest []).map (fun sub1 => insertEntry entries name (.dir sub1))

/-- The call `os.MkdirAll(path, 0777)`. -/
def MkdirAll (path : Str) (root : List (Str × Node)) : Option (List (Str × Node)) :=
  match pathElems path with
  | none => none
  | some elems => mkdirElems elems root

/-- The walk of `os.WriteFile` along the elements of a path; `none` when the
parent directory is missing or the target is a directory. -/
def writeElems : List Str → Bytes → List (Str × Node) → Option (List (Str × Node))
  | [], _, _ => none
  | [name], data, entries =>
    match lookupEntry entries name with
    | some (.dir _) => none
    | _ => some (putEntry entries name (.file data))
  | name :: rest, data, entries =>
    match lookupEntry entries name with
    | some (.dir sub) =>
      (writeElems rest data sub).map (fun sub1 => replaceEntry entries name (.dir sub1))
    | _ => none

/-- The call `os.WriteFile(path, data, 0777)`. -/
def WriteFile (path : Str) (data : Bytes) (root : List (Str × Node)) :
    Option (List (Str × Node)) :=
  match pathElems path with
  | none => none
  | some elems => writeElems elems data root

/-! ## The index and the status -/

/-- SetDefault. -/
def SetDefault (s : Repo) : Repo := { s with index := some [] }

/-- SetStaged: `.lit/index` is overwritten with the pairs. -/
def SetStaged (pairs : GoMap Str) (s : Repo) : Res Unit × Repo :=
  (.ok (), { s with index := some pairs })

/-- Staged: the content of `.lit/index`. -/
def Staged (s : Repo) : Res (GoMap Str) :=
  match s.index with
  | none => .error (.err .os)
  | some m => .ok m

/-- The type Status. -/
inductive Status where
  | Created
  | Modified
  | Deleted
  | Renamed
  deriving DecidableEq, Repr

/-- The helper copyMap. -/
def copyMap (original : GoMap Str) : GoMap Str :=
  original.foldl (fun targetMap e => targetMap.set e.1 e.2) []

/-- The variables the callback of UnstagedChanges works on. -/
structure UnstagedAcc where
  staged : GoMap Str
  untracked : List Str
  unstagedResult : GoMap Status

/-- The callback of UnstagedChanges on a regular file at `cleanPath` with content `data`. -/
def unstagedVisit (sha : Bytes → Str) (cleanPath : Str) (data : Bytes) (acc : UnstagedAcc) :
    UnstagedAcc :=
  match acc.staged.get cleanPath with
  | none =>
    { acc with untracked := acc.untracked ++ [cleanPath],
               staged := acc.staged.delete cleanPath }
  | some indexHash =>
    if Hash sha data ≠ indexHash then
      { acc with unstagedResult := acc.unstagedResult.set cleanPath .Modified,
                 staged := acc.staged.delete cleanPath }
    else { acc with staged := acc.staged.delete cleanPath }

mutual
/-- The visit of one path by `filepath.WalkDir` under the callback of
UnstagedChanges; the flag tells whether `filepath.SkipDir` reaches the walk of
the parent directory. -/
def unstagedWalk (sha : Bytes → Str) (path : Str) : Node → UnstagedAcc → UnstagedAcc × Bool
  | .file data, acc =>
    if CleanPath path = ".lit".toList then (acc, true)
    else if CleanPath path = ".".toList then (acc, false)
    else (unstagedVisit sha (CleanPath path) data acc, false)
  | .dir entries, acc =>
    if CleanPath path = ".lit".toList then (acc, false)
    else (unstagedEntries sha path entries acc, false)
/-- The loop of WalkDir over the entries of the directory `dir`. -/
def unstagedEntries (sha : Bytes → Str) (dir : Str) :
    List (Str × Node) → UnstagedAcc → UnstagedAcc
  | [], acc => acc
  | (name, n) :: rest, acc =>
    match unstagedWalk sha (joinPath dir name) n acc with
    | (acc1, true) => acc1
    | (acc1, false) => unstagedEntries sha dir rest acc1
end

/-- UnstagedChanges: the unstaged changes, the untracked files, and the map the
argument `staged` of the caller refers to after the call (the function works
on a copy). -/
def UnstagedChanges (sha : Bytes → Str) (staged : GoMap Str) (root : List (Str × Node)) :
    Res (GoMap Status × List Str × GoMap Str) :=
  let acc := (unstagedWalk sha ".".toList (.dir root)
    { staged := copyMap staged, untracked := [], unstagedResult := [] }).1
  .ok (acc.staged.foldl (fun r e => r.set (CleanPath e.1) .Deleted) acc.unstagedResult,
       acc.untracked, staged)

/-- One round of the loop of StagedChanges over the hashes of the commit. -/
def stagedStep (acc : GoMap Str × GoMap Status) (e : Str × Str) : GoMap Str × GoMap Status :=
  match acc.1.get e.1 with
  | none => (acc.1.delete e.1, acc.2.set e.1 .Deleted)
  | some indexHash =>
    if e.2 ≠ indexHash then (acc.1.delete e.1, acc.2.set e.1 .Modified)
    else (acc.1.delete e.1, acc.2)

/-- StagedChanges.  The error recursivelyGetHashes returns is dropped, a panic is not. -/
def StagedChanges (hashes : GoMap Str) (s : Repo) : Res (GoMap Status) :=
  match HeadCommit s with
  | .error (.err .refsNotFound) =>
    .ok ((copyMap hashes).foldl (fun stagedStatus e => stagedStatus.set e.1 .Created) [])
  | .error f => .error f
  | .ok headCommit =>
    match ReadAsCommit s.objects headCommit with
    | .error f => .error f
    | .ok com =>
      match recursivelyGetHashes s.objects (depthBound s.objects) com.CommitTree [] [] with
      | (_, some .panicSlice) => .error .panicSlice
      | (_, some .diverge) => .error .diverge
      | (_, some .outside) => .error .outside
      | (commitHashes, _) =>
        let r := commitHashes.foldl stagedStep (copyMap hashes, [])
        .ok (r.1.foldl (fun stagedStatus e => stagedStatus.set e.1 .Created) r.2)

/-- GetStatus: unstaged changes, staged changes, untracked files. -/
def GetStatus (sha : Bytes → Str) (s : Repo) : Res (GoMap Status × GoMap Status × List Str) :=
  match Staged s with
  | .error f => .error f
  | .ok hashes =>
    match UnstagedChanges sha hashes s.root with
    | .error f => .error f
    | .ok (unstagedStatus, untracked, hashes1) =>
      match StagedChanges hashes1 s with
      | .error f => .error f
      | .ok stagedStatus => .ok (unstagedStatus, stagedStatus, untracked)

/-! ## Loading a commit -/

/-- The loop of recursivelyAddToIndex over the entries of one tree; `recurse` is
the recursive call.  The index map is shared with the caller. -/
def addToIndexLoop (st : Store) (recurse : GoMap TreeEntry → GoMap Str → Str → GoMap Str × Option Fault)
    (basePath : Str) : List (Str × TreeEntry) → GoMap Str → GoMap Str × Option Fault
  | [], index => (index, none)
  | (name, entry) :: rest, index =>
    if entry.ObjType = "Tree".toList then
      match ReadAsTree st entry.Hash with
      | .error f => (index, some f)
      | .ok subTree =>
        match recurse subTree index (basePath ++ name ++ "/".toList) with
        | (index1, some f) => (index1, some f)
        | (index1, none) => addToIndexLoop st recurse basePath rest index1
    else addToIndexLoop st recurse basePath rest (index.set (basePath ++ name) entry.Hash)

/-- recursivelyAddToIndex, with the depth bound of recursivelyGetHashes. -/
def recursivelyAddToIndex (st : Store) :
    Nat → GoMap TreeEntry → GoMap Str → Str → GoMap Str × Option Fault
  | 0, _, index, _ => (index, some .diverge)
  | fuel + 1, tree, index, basePath =>
    addToIndexLoop st (recursivelyAddToIndex st fuel) basePath tree index

/-- LoadIntoIndex. -/
def LoadIntoIndex (stagedChanges : GoMap Status) (hashes : GoMap Str) (commit : Commit)
    (s : Repo) : Res Unit × Repo :=
  match ReadAsTree s.objects commit.CommitTree with
  | .error f => (.error f, s)
  | .ok tree =>
    match recursivelyAddToIndex s.objects (depthBound s.objects) tree
        (stagedChanges.foldl (fun result e => result.set e.1 ((hashes.get e.1).getD [])) [])
        [] with
    | (_, some f) => (.error f, s)
    | (result, none) => SetStaged result s

/-- The loop of LoadTree over the entries of one tree; `recurse` is the
recursive call.  The working directory is returned together with the error. -/
def loadTreeLoop (st : Store)
    (recurse : Str → GoMap TreeEntry → List (Str × Node) → List (Str × Node) × Option Fault)
    (basePath : Str) :
    List (Str × TreeEntry) → List (Str × Node) → List (Str × Node) × Option Fault
  | [], root => (root, none)
  | (name, entry) :: rest, root =>
    if entry.ObjType = "Tree".toList then
      match ReadAsTree st entry.Hash with
      | .error f => (root, some f)
      | .ok subtree =>
        match (if subtree.length ≠ 0 then MkdirAll (basePath ++ name) root else some root) with
        | none => (root, some (.err .os))
        | some root1 =>
          match recurse (basePath ++ name ++ "/".toList) subtree root1 with
          | (root2, some f) => (root2, some f)
          | (root2, none) => loadTreeLoop st recurse basePath rest root2
    else
      match ReadAsBlob st entry.Hash with
      | .error f => (root, some f)
      | .ok blob =>
        match WriteFile (basePath ++ name) (utf8 blob) root with
        | none => (root, some (.err .os))
        | some root1 => loadTreeLoop st recurse basePath rest root1

/-- LoadTree, with the depth bound of recursivelyGetHashes. -/
def LoadTree (st : Store) :
    Nat → Str → GoMap TreeEntry → List (Str × Node) → List (Str × Node) × Option Fault
  | 0, _, _, root => (root, some .diverge)
  | fuel + 1, basePath, tree, root => loadTreeLoop st (LoadTree st fuel) basePath tree root

/-- LoadIn. -/
def LoadIn (com : Commit) (s : Repo) : Res Unit × Repo :=
  match ReadAsTree s.objects com.CommitTree with
  | .error f => (.error f, s)
  | .ok tree =>
    match LoadTree s.objects (depthBound s.objects) [] tree s.root with
    | (root1, some f) => (.error f, { s with root := root1 })
    | (root1, none) => (.ok (), { s with root := root1 })

/-! ## ExpandHash -/

/-- The call `strings.HasPrefix(s, p)`. -/
def hasPrefix : Str → Str → Bool
  | _, [] => true
  | [], _ :: _ => false
  | a :: as, b :: bs => decide (a = b) && hasPrefix as bs

/-- The call `strings.ToLower(s)` on a string of ASCII characters. -/
def toLower (s : Str) : Str := s.map Char.toLower

/-- The call `strings.Join(elems, "")`. -/
def concatElems : List Str → Str
  | [] => []
  | e :: rest => e ++ concatElems rest

/-- The helper concatLastPathElems. -/
def concatLastPathElems (path : Str) (n : Nat) : Str :=
  if n > (splitSlash path).length then concatElems (splitSlash path)
  else concatElems ((splitSlash path).drop ((splitSlash path).length - n))

/-- The name of the directory that holds the object file at `path`. -/
def shardOf (path : Str) : Str :=
  ((splitSlash path).drop ((splitSlash path).length - 2)).headD []

/-- The file name of the object file at `path`, `info.Name()`. -/
def baseOf (path : Str) : Str := (splitSlash path).getLastD []

/-- Insertion into a list of names kept in byte order, without repetition. -/
def insertName (k : Str) : List Str → List Str
  | [] => [k]
  | k0 :: m => if k0 = k then k0 :: m else if strLt k k0 then k :: k0 :: m else k0 :: insertName k m

/-- A list of names in byte order, the order in which `filepath.Walk` visits them. -/
def sortNames (l : List Str) : List Str := l.foldr insertName []

/-- The walk of `filepath.Walk` over the files of one directory of the store
under the callback of ExpandHash.  A `filepath.SkipDir` returned for a file
ends the walk of the directory. -/
def expandFiles (st : Store) : List Str → Str → Res Str
  | [], result => .ok result
  | path :: rest, result =>
    if (utf8 (concatLastPathElems (CleanPath path) 2)).length < FolderCharacters then
      .error .panicSlice
    else if ¬ ((utf8 (concatLastPathElems (CleanPath path) 2)).drop FolderCharacters).isPrefixOf
        (utf8 (baseOf path))
    then .ok result
    else
      match HashIsCommit st (concatLastPathElems (CleanPath path) 2) with
      | .error f => .error f
      | .ok false => .ok result
      | .ok true => expandFiles st rest (concatLastPathElems (CleanPath path) 2)

/-- The walk over the directories under `.lit/objects`. -/
def expandDirs (st : Store) (hash : Str) : List Str → Str → Res Str
  | [], result => .ok result
  | d :: rest, result =>
    if (utf8 hash).length < FolderCharacters then .error .panicSlice
    else if utf8 d ≠ (utf8 hash).take FolderCharacters then expandDirs st hash rest result
    else
      match expandFiles st (sortNames (st.keys.filter (fun q => decide (shardOf q = d)))) result with
      | .error f => .error f
      | .ok result1 => expandDirs st hash rest result1

/-- ExpandHash.  `strings.ToLower` maps the upper case letters of every
script; the model lowers ASCII letters and leaves an argument with another
character aside. -/
def ExpandHash (st : Store) (hash : Str) : Res Str :=
  if hash.all (fun c => decide (c.toNat < 0x80)) then
    expandDirs st (toLower hash) (sortNames (st.keys.map shardOf)) []
  else .error .outside

/-! ## Checkout -/

/-- The function switchTo of package cmd: the result and the repository after the call. -/
def switchTo (sha : Bytes → Str) (hc : HeadContent) (s : Repo) : Res Unit × Repo :=
  match Staged s with
  | .error f => (.error f, s)
  | .ok currentHashes =>
    match GetStatus sha s with
    | .error f => (.error f, s)
    | .ok (currentUnstagedStatus, currentStagedStatus, currentUntracked) =>
      if currentUnstagedStatus.length + currentStagedStatus.length ≠ 0 then
        (.error (.err .uncommittedChanges), s)
      else
        match SetHeadTo hc
            { s with root := ClearWorkingTree (FromSlice currentUntracked) s.root } with
        | (.error f, s2) => (.error f, s2)
        | (.ok _, s2) =>
          match HeadCommit s2 with
          | .error f => (.error f, s2)
          | .ok newCommitHash =>
            match ReadAsCommit s2.objects newCommitHash with
            | .error f => (.error f, s2)
            | .ok newCommitContent =>
              match LoadIntoIndex currentStagedStatus currentHashes newCommitContent s2 with
              | (.error f, s3) => (.error f, s3)
              | (.ok _, s3) => LoadIn newCommitContent s3

/-- The function checkoutLocation of package cmd.  On the branch path the
value switchTo returns is dropped and nil is returned; a panic still unwinds. -/
def checkoutLocation (sha : Bytes → Str) (loc : Str) (detach : Bool) (s : Repo) :
    Res Unit × Repo :=
  if detach then
    match ReadBranch s loc with
    | .error f => (.error f, s)
    | .ok commit => switchTo sha { Detached := true, Location := commit } s
  else
    match ReadBranch s loc with
    | .error (.err .refsNotFound) =>
      match ExpandHash s.objects loc with
      | .error f => (.error f, s)
      | .ok hash =>
        if hash = [] then (.error (.err .noCommitWithHash), s)
        else switchTo sha { Detached := true, Location := hash } s
    | .error f => (.error f, s)
    | .ok _ =>
      match switchTo sha { Detached := false, Location := loc } s with
      | (.error (.err _), s1) => (.ok (), s1)
      | (.error f, s1) => (.error f, s1)
      | (.ok _, s1) => (.ok (), s1)

/-- InitializeRepo, run in a directory with the entries `dir`. -/
def InitializeRepo (dir : List (Str × Node)) : Res Repo :=
  if (lookupEntry dir ".lit".toList).isSome then .error (.err .alreadyRepo)
  else .ok { root := dir, index := some [], head := some { Detached := false, Location := "main".toList },
             heads := [], objects := [] }

/-! ## Staging the unstaged changes -/

/-- The walk of `os.ReadFile` along the elements of a path. -/
def readElems : List Str → List (Str × Node) → Option Bytes
  | [], _ => none
  | [name], entries =>
    match lookupEntry entries name with
    | some (.file data) => some data
    | _ => none
  | name :: rest, entries =>
    match lookupEntry entries name with
    | some (.dir sub) => readElems rest sub
    | _ => none

/-- The call `os.ReadFile(path)`; `none` stands for the error. -/
def ReadFile (path : Str) (root : List (Str × Node)) : Option Bytes :=
  match pathElems path with
  | none => none
  | some elems => readElems elems root

/-- Blobify: the empty hash when the file cannot be read. -/
def Blobify (sha : Bytes → Str) (path : Str) (root : List (Str × Node)) (st : Store) :
    Res (Str × Store) :=
  match ReadFile path root with
  | none => .ok ([], st)
  | some data => WriteBlob sha data st

/-- satisfyUnstagedChanges: the result, the map `staged` (shared with the
caller) and the object store after the call. -/
def satisfyUnstagedChanges (sha : Bytes → Str) (predicate : Str → Bool)
    (root : List (Str × Node)) :
    List (Str × Status) → GoMap Str → Store → Res Unit × GoMap Str × Store
  | [], staged, st => (.ok (), staged, st)
  | (filepathChanged, state) :: rest, staged, st =>
    if ¬ predicate filepathChanged then satisfyUnstagedChanges sha predicate root rest staged st
    else
      match state with
      | .Modified =>
        match Blobify sha filepathChanged root st with
        | .error f => (.error f, staged, st)
        | .ok (hash, st1) =>
          if hash = [] then (.error (.err .couldNotWriteObjects), staged, st1)
          else satisfyUnstagedChanges sha predicate root rest (staged.set filepathChanged hash) st1
      | .Deleted =>
        satisfyUnstagedChanges sha predicate root rest (staged.delete filepathChanged) st
      | _ => (.error .panicState, staged, st)

/-! ## Well named directories -/

mutual
/-- The path WalkDir gives a node, and every path below it, is already clean
and is neither "." nor the directory `.lit`: what holds for the entries of a
directory listing outside `.lit`. -/
def Node.wellNamed (path : Str) : Node → Bool
  | .file _ =>
    decide (CleanPath path = path) && decide (path ≠ ".lit".toList) && decide (path ≠ ".".toList)
  | .dir entries =>
    decide (CleanPath path = path) && decide (path ≠ ".lit".toList) && decide (path ≠ ".".toList)
      && wellNamedEntries path entries
/-- Every entry of the directory `dir` is well named. -/
def wellNamedEntries (dir : Str) : List (Str × Node) → Bool
  | [] => true
  | (name, n) :: rest => Node.wellNamed (joinPath dir name) n && wellNamedEntries dir rest
end

/-- The entries of the repository directory other than `.lit`: the working tree. -/
def outsideLit (root : List (Str × Node)) : List (Str × Node) :=
  root.filter (fun e => decide (e.1 ≠ ".lit".toList))

/-- The listing of a repository directory: `.lit`, where it is present, is a
directory, and every other entry is well named. -/
def wellNamedRoot : List (Str × Node) → Bool
  | [] => true
  | (name, n) :: rest =>
    (if name = ".lit".toList then
        (match n with
         | .dir _ => true
         | .file _ => false)
      else Node.wellNamed (joinPath ".".toList name) n) && wellNamedRoot rest

/-! ## Branch operations -/

/-- SetBranchTo: `util.WriteJSON` creates the directory `heads` and writes the
file; with the empty name, "." or ".." the path names a directory and the write
fails. -/
def SetBranchTo (name hash : Str) (s : Repo) : Res Unit × Repo :=
  match refTarget name with
  | .outside => (.error .outside, s)
  | .entry => (.ok (), { s with heads := s.heads.set name hash, headsDir := true })
  | _ => (.error (.err .os), { s with headsDir := true })

/-- CreateBranchTo. -/
def CreateBranchTo (name hash : Str) (s : Repo) : Res Unit × Repo :=
  match BranchExists s name with
  | .error f => (.error f, s)
  | .ok true => (.error (.err .branchExists), s)
  | .ok false =>
    match HashIsCommit s.objects hash with
    | .error f => (.error f, s)
    | .ok false => (.error (.err .notCommitHash), s)
    | .ok true => SetBranchTo name hash s

/-- DeleteBranch; `os.Remove` on the directory `heads` itself (empty name)
removes it when it is empty and fails otherwise; on a path that ends in "." or
".." it fails. -/
def DeleteBranch (name : Str) (s : Repo) : Res Unit × Repo :=
  match BranchExists s name with
  | .error f => (.error f, s)
  | .ok false => (.error (.err .refsNotFound), s)
  | .ok true =>
    match refTarget name with
    | .heads =>
      if s.heads.isEmpty then (.ok (), { s with headsDir := false })
      else (.error (.err .os), s)
    | .entry => (.ok (), { s with heads := s.heads.delete name })
    | _ => (.error (.err .os), s)

/-- DeleteBranchSafe.  The value SetHeadTo returns is dropped; a panic still unwinds. -/
def DeleteBranchSafe (name : Str) (s : Repo) : Res Unit × Repo :=
  match ReadHead s with
  | .error f => (.error f, s)
  | .ok hc =>
    if hc.Detached = false ∧ hc.Location = name then
      match HeadCommit s with
      | .error f => (.error f, s)
      | .ok loc =>
        match SetHeadTo { Detached := true, Location := loc } s with
        | (.error (.err _), s1) => DeleteBranch name s1
        | (.error f, s1) => (.error f, s1)
        | (.ok _, s1) => DeleteBranch name s1
    else DeleteBranch name s

/-- NudgeHead.  In the detached case the value SetHeadTo returns is dropped. -/
def NudgeHead (commitHash : Str) (s : Repo) : Res Unit × Repo :=
  match ReadHead s with
  | .error f => (.error f, s)
  | .ok headContent =>
    if headContent.Location = [] then (.ok (), s)
    else if headContent.Detached then
      match SetHeadTo { headContent with Location := commitHash } s with
      | (.error (.err _), s1) => (.ok (), s1)
      | (.error f, s1) => (.error f, s1)
      | (.ok _, s1) => (.ok (), s1)
    else
      match BranchExists s headContent.Location with
      | .error f => (.error f, s)
      | .ok true => SetBranchTo headContent.Location commitHash s
      | .ok false =>
        match CreateBranchTo headContent.Location commitHash s with
        | (.error f, s1) => (.error f, s1)
        | (.ok _, s1) => SetBranchTo headContent.Location commitHash s1

/-! ## Commits -/

/-- The call `strings.Join(elems, " ")`, the way `%v` prints a slice of strings. -/
def joinSpace : List Str → Str
  | [] => []
  | [e] => e
  | e :: rest => e ++ " ".toList ++ joinSpace rest

/-- A stand-in for the text `%v` prints for a `time.Time`: one text per instant. -/
def timeText (t : Nat) : Str := Nat.toDigits 10 t

/-- The text `fmt.Sprintf("%v", commit)` of a pointer to a Commit. -/
def commitText (c : Commit) : Str :=
  "&\x7b".toList ++ c.Name ++ " ".toList ++ c.CommitTree ++ " [".toList ++ joinSpace c.Parents
    ++ "] ".toList ++ timeText c.Time ++ "\x7d".toList

/-- HashCommit. -/
def HashCommit (sha : Bytes → Str) (commit : Commit) : Str := sha (utf8 (commitText commit))

/-- WriteCommit: the envelope of type "Commit" is written to the path of the hash. -/
def WriteCommit (sha : Bytes → Str) (commit : Commit) (st : Store) : Res (Str × Store) :=
  match GetHashPath (HashCommit sha commit) with
  | .error f => .error f
  | .ok p => .ok (HashCommit sha commit, st.set p (.commit commit))

/-- Commit of package index, at the time `now`; `ord` is the iteration order
HashTree meets.  The state at a panic is not tracked. -/
def index.Commit (sha : Bytes → Str) (ord : GoMap TreeEntry → GoMap TreeEntry)
    (commitName : Str) (now : Nat) (s : Repo) : Res Str × Repo :=
  match Staged s with
  | .error f => (.error f, s)
  | .ok hashes =>
    match treeNode.Write sha ord (generateTreeNode hashes) s.objects with
    | .error f => (.error f, s)
    | .ok (tree, st1) =>
      if tree = [] then (.error (.err .failedToWriteCommit), { s with objects := st1 })
      else
        match (match HeadCommit s with
               | .error (.err .refsNotFound) => Except.ok []
               | .error f => .error f
               | .ok prevHead => .ok prevHead) with
        | .error f => (.error f, { s with objects := st1 })
        | .ok prevHead =>
          match WriteCommit sha
              { Name := commitName, CommitTree := tree, Parents := [prevHead], Time := now }
              st1 with
          | .error f => (.error f, { s with objects := st1 })
          | .ok (com, st2) =>
            if com = [] then (.error (.err .failedToWriteCommit), { s with objects := st2 })
            else
              match NudgeHead com { s with objects := st2 } with
              | (.error f, s3) => (.error f, s3)
              | (.ok _, s3) => (.ok com, s3)

/-! ## Log -/

/-- The loop of recursivelyAddCommitsToSlice over the parents of a commit;
`recurse` is the recursive call.  The slice is returned together with the error. -/
def addCommitsLoop (recurse : Str → List (Commit × Str) → List (Commit × Str) × Option Fault) :
    List Str → List (Commit × Str) → List (Commit × Str) × Option Fault
  | [], out => (out, none)
  | parent :: rest, out =>
    match recurse parent out with
    | (out1, some f) => (out1, some f)
    | (out1, none) => addCommitsLoop recurse rest out1

/-- recursivelyAddCommitsToSlice, with a bound on the depth of the recursion;
a pair is the commit and its hash (CommitHashPair). -/
def recursivelyAddCommitsToSlice (st : Store) :
    Nat → Str → List (Commit × Str) → List (Commit × Str) × Option Fault
  | 0, _, out => (out, some .diverge)
  | fuel + 1, commitHash, out =>
    match ReadAsCommit st commitHash with
    | .error f => (out, some f)
    | .ok commit =>
      addCommitsLoop (recursivelyAddCommitsToSlice st fuel) commit.Parents
        (out ++ [(commit, commitHash)])

/-! ## Staging a path -/

/-- The call `strings.Contains(s, "..")`. -/
def containsDotDot : Str → Bool
  | [] => false
  | c :: rest =>
    (decide (c = '.') && decide (rest.head? = some '.')) || containsDotDot rest

/-- A path without its leading slash. -/
def stripRoot : Str → Str
  | [] => []
  | c :: rest => if c = '/' then rest else c :: rest

/-- The elements of a path, none for the empty path. -/
def pathElemsOf (p : Str) : List Str := if p = [] then [] else splitSlash p

/-- The loop of `filepath.Rel` over the elements of the cleaned base and
target: equal leading elements are dropped; a base element `..` that differs
from the target element is an error; every base element left costs one `..`. -/
def relElems : List Str → List Str → Option (List Str)
  | [], ts => some ts
  | _ :: bs, [] => some (List.replicate (bs.length + 1) "..".toList)
  | b :: bs, t :: ts =>
    if b = t then relElems bs ts
    else if b = "..".toList then none
    else some (List.replicate (bs.length + 1) "..".toList ++ t :: ts)

/-- The call `filepath.Rel(basepath, targpath)` on a system whose separator is
the slash; `none` stands for the error. -/
def Rel (basepath targpath : Str) : Option Str :=
  if CleanPath targpath = CleanPath basepath then some ".".toList
  else if decide ((CleanPath basepath).head? = some '/')
      ≠ decide ((CleanPath targpath).head? = some '/') then none
  else
    (relElems
      (pathElemsOf (stripRoot (if CleanPath basepath = ".".toList then [] else CleanPath basepath)))
      (pathElemsOf (stripRoot (CleanPath targpath)))).map joinSlash

/-- IsSubPath of package util. -/
def IsSubPath (base sub : Str) : Bool :=
  match Rel base sub with
  | none => false
  | some relative => !containsDotDot (CleanPath relative)

/-- satisfyUntracked: the result, the map `staged` (shared with the caller)
and the object store after the call. -/
def satisfyUntracked (sha : Bytes → Str) (predicate : Str → Bool) (root : List (Str × Node)) :
    List Str → GoMap Str → Store → Res Unit × GoMap Str × Store
  | [], staged, st => (.ok (), staged, st)
  | untrackedPath :: rest, staged, st =>
    if predicate untrackedPath then
      match Blobify sha untrackedPath root st with
      | .error f => (.error f, staged, st)
      | .ok (hash, st1) =>
        if hash = [] then (.error (.err .couldNotWriteObjects), staged, st1)
        else satisfyUntracked sha predicate root rest (staged.set untrackedPath hash) st1
    else satisfyUntracked sha predicate root rest staged st

/-- Stage.  The predicate of the source sets `changesDone` whenever it returns
true; once both loops have returned nil it was called on every changed and
every untracked path, so `changesDone` tells whether one of them passes. -/
def Stage (sha : Bytes → Str) (path : Str) (s : Repo) : Res Unit × Repo :=
  match Staged s with
  | .error f => (.error f, s)
  | .ok staged =>
    match UnstagedChanges sha staged s.root with
    | .error f => (.error f, s)
    | .ok (unstagedChanges, untracked, staged1) =>
      match satisfyUnstagedChanges sha (IsSubPath path) s.root unstagedChanges staged1
          s.objects with
      | (.error f, _, st1) => (.error f, { s with objects := st1 })
      | (.ok _, staged2, st1) =>
        match satisfyUntracked sha (IsSubPath path) s.root untracked staged2 st1 with
        | (.error f, _, st2) => (.error f, { s with objects := st2 })
        | (.ok _, staged3, st2) =>
          if (unstagedChanges.any (fun e => IsSubPath path e.1)
              || untracked.any (IsSubPath path)) = false then
            (.error (.err .fileDoesNotExist), { s with objects := st2 })
          else SetStaged staged3 { s with objects := st2 }

/-! ## Concrete stores and repositories for the later theorems -/

/-- A store whose only object is a commit with the hash `abcdef`. -/
def oneCommitStore : Store :=
  [(".lit/objects/ab/cdef".toList,
      .commit { Name := "first".toList, CommitTree := "t1t1".toList, Parents := [[]], Time := 0 })]

/-- The store with the commit `abcdef` and, in the same directory, the blob `ab00`. -/
def blobFirstStore : Store :=
  (".lit/objects/ab/00".toList, .blob "x".toList) :: oneCommitStore

/-- A repository without commit whose working tree holds `dir/a..b` and `dir/c`, both untracked. -/
def dotDotRepo : Repo :=
  { root := [("dir".toList, .dir [("a..b".toList, .file [1]), ("c".toList, .file [2])])],
    index := some [],
    head := some { Detached := false, Location := "main".toList },
    heads := [], objects := [] }

/-- A repository without commit whose index holds the two files `a/x` and `a/y`. -/
def siblingsRepo : Repo :=
  { root := [], index := some [("a/x".toList, "h1".toList), ("a/y".toList, "h2".toList)],
    head := some { Detached := false, Location := "main".toList },
    heads := [], objects := [] }

/-! ## The classifications of the specification -/

/-- The staged status of a path as the specification words it, from the entry
of the path in the index and its entry in the flattened tree of the HEAD
commit: missing from the tree, Created; in both with different hashes,
Modified; missing from the index, Deleted; else no entry. -/
def stagedClass (indexHash commitHash : Option Str) : Option Status :=
  match indexHash, commitHash with
  | some _, none => some .Created
  | some i, some t => if t ≠ i then some .Modified else none
  | none, some _ => some .Deleted
  | none, none => none

/-- The unstaged status of a path as the specification words it, from the
file at the path in the working tree and the entry of the path in the index:
in the index but not in the tree, Deleted; in both with a different hash,
Modified; else no entry (a file without index entry is untracked). -/
def unstagedClass (sha : Bytes → Str) (file : Option Bytes) (indexHash : Option Str) :
    Option Status :=
  match file, indexHash with
  | none, some _ => some .Deleted
  | some data, some i => if Hash sha data ≠ i then some .Modified else none
  | _, none => none

/-- The specification's "equal to or nested under": after cleaning, `p` is
`path`, or both are rooted or both relative and the elements of `path` are the
leading elements of `p`; "." has no element, every relative path is under it. -/
def isUnder (path p : Str) : Bool :=
  decide (CleanPath p = CleanPath path)
  || (decide (decide ((CleanPath path).head? = some '/')
        = decide ((CleanPath p).head? = some '/'))
      && (pathElemsOf (stripRoot (if CleanPath path = ".".toList then [] else CleanPath path))).isPrefixOf
          (pathElemsOf (stripRoot (CleanPath p))))

/-! ## Reachable repository states -/

/-- The invariant of the specification: HEAD is attached to a branch whose ref
record exists, or detached to the hash of a stored Commit. -/
def HeadNeverDangling (s : Repo) : Prop :=
  ∃ hc, s.head = some hc
    ∧ ((hc.Detached = false ∧ ∃ r, ReadBranch s hc.Location = .ok r)
       ∨ (hc.Detached = true ∧ HashIsCommit s.objects hc.Location = .ok true))

/-- One successful call (a call that returns nil) of a public operation. -/
inductive Step (sha : Bytes → Str) : Repo → Repo → Prop where
  | stage (s : Repo) (path : Str) :
      (Stage sha path s).1 = .ok () → Step sha s (Stage sha path s).2
  | commit (s : Repo) (ord : GoMap TreeEntry → GoMap TreeEntry) (name : Str) (now : Nat)
      (com : Str) :
      (index.Commit sha ord name now s).1 = .ok com →
      Step sha s (index.Commit sha ord name now s).2
  | createBranch (s : Repo) (name hash : Str) :
      (CreateBranchTo name hash s).1 = .ok () → Step sha s (CreateBranchTo name hash s).2
  | deleteBranch (s : Repo) (name : Str) :
      (DeleteBranchSafe name s).1 = .ok () → Step sha s (DeleteBranchSafe name s).2
  | setHead (s : Repo) (hc : HeadContent) :
      (SetHeadTo hc s).1 = .ok () → Step sha s (SetHeadTo hc s).2
  | nudge (s : Repo) (c : Str) :
      (NudgeHead c s).1 = .ok () → Step sha s (NudgeHead c s).2
  | checkout (s : Repo) (loc : Str) (detach : Bool) :
      (checkoutLocation sha loc detach s).1 = .ok () →
      Step sha s (checkoutLocation sha loc detach s).2

/-- The states reached from InitializeRepo by successful calls of the public operations. -/
inductive Reachable (sha : Bytes → Str) : Repo → Prop where
  | init (dir : List (Str × Node)) (s : Repo) : InitializeRepo dir = .ok s → Reachable sha s
  | step (s s1 : Repo) : Reachable sha s → Step sha s s1 → Reachable sha s1

/-! ## Concrete inputs used below -/

/-- The flat index with the two files `a/x` and `a/y` of one directory. -/
def twoSiblings : GoMap Str :=
  [("a/x".toList, "h1".toList), ("a/y".toList, "h2".toList)]

/-- The entries of a tree with the two blobs `x` and `y`. -/
def twoBlobs : GoMap TreeEntry :=
  [("x".toList, { ObjType := "Blob".toList, Hash := "h1".toList }),
   ("y".toList, { ObjType := "Blob".toList, Hash := "h2".toList })]

/-- A working directory whose only file is the untracked `sub/u.txt`. -/
def untrackedInSub : List (Str × Node) :=
  [("sub".toList, .dir [("u.txt".toList, .file [117])])]

/-- A repository with one commit on `main` that tracks `a.txt`, whose file
`a.txt` was edited afterwards; `feature` is a second branch at the same commit. -/
def driftRepo : Repo :=
  { root := [("a.txt".toList, .file [119])],
    index := some [("a.txt".toList, demoSha [104])],
    head := some { Detached := false, Location := "main".toList },
    heads := [("main".toList, "c1c1".toList), ("feature".toList, "c1c1".toList)],
    objects :=
      [(".lit/objects/h:/h".toList, .blob "h".toList),
       (".lit/objects/t1/t1".toList,
          .tree [("a.txt".toList, { ObjType := "Blob".toList, Hash := demoSha [104] })]),
       (".lit/objects/c1/c1".toList,
          .commit { Name := "first".toList, CommitTree := "t1t1".toList,
                    Parents := [[]], Time := 0 })] }

/-- The repository InitializeRepo leaves in an empty directory. -/
def freshRepo : Repo :=
  { root := [], index := some [],
    head := some { Detached := false, Location := "main".toList },
    heads := [], objects := [] }

/-- A repository whose HEAD commit holds `a.txt`, `gone.txt` and `d/e.txt`. -/
def committedRepo : Repo :=
  { root := [],
    index := some [],
    head := some { Detached := false, Location := "main".toList },
    heads := [("main".toList, "c1c1".toList)],
    objects :=
      [(".lit/objects/t2/t2".toList,
          .tree [("e.txt".toList, { ObjType := "Blob".toList, Hash := "hE".toList })]),
       (".lit/objects/t1/t1".toList,
          .tree [("a.txt".toList, { ObjType := "Blob".toList, Hash := "hA".toList }),
                 ("d".toList, { ObjType := "Tree".toList, Hash := "t2t2".toList }),
                 ("gone.txt".toList, { ObjType := "Blob".toList, Hash := "hG".toList })]),
       (".lit/objects/c1/c1".toList,
          .commit { Name := "first".toList, CommitTree := "t1t1".toList,
                    Parents := [[]], Time := 0 })] }

/-- An index that keeps `a.txt`, changes `d/e.txt`, adds `new.txt` and drops `gone.txt`. -/
def editedIndex : GoMap Str :=
  [("a.txt".toList, "hA".toList), ("d/e.txt".toList, "hE2".toList),
   ("new.txt".toList, "hN".toList)]

/-- A working directory with an edited file, an unchanged file and an untracked file in a directory. -/
def editedRoot : List (Str × Node) :=
  [("a.txt".toList, .file [119]), ("same.txt".toList, .file [115]),
   ("sub".toList, .dir [("u.txt".toList, .file [117])])]

/-- The working directory above as the walk meets it, with the directory `.lit`. -/
def editedRootWithLit : List (Str × Node) :=
  (".lit".toList, .dir [("HEAD".toList, .file [123, 125]),
                        ("objects".toList, .dir [("ab".toList, .dir [("cd".toList, .file [120])])])])
    :: editedRoot

/-- An index that tracks `a.txt` (with the hash of an older content), `same.txt` and `gone.txt`. -/
def trackedIndex : GoMap Str :=
  [("a.txt".toList, demoSha [104]), ("gone.txt".toList, "hG".toList),
   ("same.txt".toList, demoSha [115])]

/-- The repository with one commit on `main` and `feature` whose working tree
and index both hold the committed `a.txt`. -/
def cleanRepo : Repo := { driftRepo with root := [("a.txt".toList, .file [104])] }

/-- The clean repository with one more file, the untracked `sub/u.txt`. -/
def untrackedRepo : Repo :=
  { cleanRepo with
    root := [("a.txt".toList, .file [104]), ("sub".toList, .dir [("u.txt".toList, .file [117])])] }

/-- The first commit made in the fresh repository at the time 1. -/
def firstCommit : Commit :=
  { Name := "first".toList, CommitTree := demoSha [], Parents := [[]], Time := 1 }

/-- A directory with one file, whose content is the text that HashCommit
hashes for the first commit. -/
def shadowDir : List (Str × Node) := [("f".toList, .file (utf8 (commitText firstCommit)))]

/-- The repository InitializeRepo creates in that directory. -/
def shadowStart : Repo :=
  { root := shadowDir, index := some [],
    head := some { Detached := false, Location := "main".toList },
    heads := [], objects := [] }

/-- That repository after Commit("first") and DeleteBranchSafe("main"): HEAD is
detached to the first commit. -/
def detachedRepo : Repo :=
  (DeleteBranchSafe "main".toList (index.Commit demoSha id "first".toList 1 shadowStart).2).2

/-- The fresh repository after Commit("first") and NudgeHead("zz"): the ref of
`main` stores a string that is not the hash of a stored commit. -/
def strayRefRepo : Repo :=
  (NudgeHead "zz".toList (index.Commit demoSha id "first".toList 1 freshRepo).2).2

/-- The repository above after DeleteBranchSafe("main"). -/
def danglingRepo : Repo := (DeleteBranchSafe "main".toList strayRefRepo).2

/-- A repository with a stored commit and no ref, whose HEAD has the empty Location. -/
def emptyLocationRepo : Repo :=
  { committedRepo with heads := [], head := some { Detached := false, Location := [] } }

/-! ## Tree codec: theorems -/

theorem sliceAtFolder_eq {h folder file : Str} (hs : sliceAtFolder h = some (folder, file)) :
    h = folder ++ file
    ∧ ((∃ c0 c1, folder = [c0, c1] ∧ c0.toNat < 0x80)
       ∨ (∃ c0, folder = [c0] ∧ ¬ c0.toNat < 0x80)) := by
  unfold sliceAtFolder at hs
  split at hs
  · cases hs
  · next c0 rest =>
    split at hs
    · next h0 =>
      split at hs
      · next c1 rest1 =>
        split at hs
        · cases hs
          exact ⟨rfl, Or.inl ⟨c0, c1, rfl, h0⟩⟩
        · cases hs
      · cases hs
    · next h0 =>
      split at hs
      · cases hs
        exact ⟨rfl, Or.inr ⟨c0, rfl, h0⟩⟩
      · cases hs

theorem GetHashPath_ok {h p : Str} (hp : GetHashPath h = .ok p) :
    ∃ folder file, sliceAtFolder h = some (folder, file)
      ∧ p = ".lit/objects/".toList ++ folder ++ "/".toList ++ file := by
  unfold GetHashPath at hp
  split at hp
  · cases hp
  · split at hp
    · cases hp
    · next folder file heq =>
      cases hp
      exact ⟨folder, file, heq, rfl⟩

theorem GetHashPath_inj {a b p : Str} (ha : GetHashPath a = .ok p) (hb : GetHashPath b = .ok p) :
    a = b := by
  obtain ⟨fa, ra, hsa, hpa⟩ := GetHashPath_ok ha
  obtain ⟨fb, rb, hsb, hpb⟩ := GetHashPath_ok hb
  obtain ⟨ea, ka⟩ := sliceAtFolder_eq hsa
  obtain ⟨eb, kb⟩ := sliceAtFolder_eq hsb
  rw [hpa] at hpb
  simp only [List.append_assoc] at hpb
  have h1 := List.append_cancel_left hpb
  rw [ea, eb]
  rcases ka with ⟨a0, a1, hfa, ha0⟩ | ⟨a0, hfa, ha0⟩ <;>
    rcases kb with ⟨b0, b1, hfb, hb0⟩ | ⟨b0, hfb, hb0⟩ <;>
    subst hfa hfb <;> simp at h1 ⊢
  · obtain ⟨h2, h3, h4⟩ := h1
    exact ⟨h2, h3, h4⟩
  · obtain ⟨h2, h3⟩ := h1
    subst h2
    exact absurd ha0 hb0
  · obtain ⟨h2, h3⟩ := h1
    subst h2
    exact absurd hb0 ha0
  · exact h1

theorem generateTreeNode_twoSiblings :
    generateTreeNode twoSiblings = .mk [("a".toList, .mk [] [("y".toList, "h2".toList)])] [] := by
  rfl

theorem generateTreeNode_twoSiblings_reversed :
    generateTreeNode twoSiblings.reverse
      = .mk [("a".toList, .mk [] [("x".toList, "h1".toList)])] [] := by
  rfl

/-- A tree that lists itself under the name `a` is never flattened, whatever the depth allowed. -/
theorem recursivelyGetHashes_cyclic (B pb : Str) (hpb : GetHashPath B = .ok pb) :
    ∀ (fuel : Nat) (result : GoMap Str) (base : Str),
      (recursivelyGetHashes
        [(pb, Object.tree [("a".toList, { ObjType := "Tree".toList, Hash := B })])]
        fuel B result base).2 = some .diverge := by
  intro fuel
  induction fuel with
  | zero => intro result base; rfl
  | succ n ih =>
    intro result base
    have h := ih result (base ++ "a".toList ++ "/".toList)
    simp only [String.toList, List.append_assoc, List.singleton_append] at h
    simp only [recursivelyGetHashes, ReadAsTree, hpb, GoMap.get, getHashesLoop, if_true,
      String.toList, List.append_assoc, List.singleton_append]
    split
    · next r1 f heq => rw [heq] at h; exact h
    · next r1 heq => rw [heq] at h; cases h

/-- Writing the node generated for one file in a directory `a` and flattening
the root gives exactly that one file, or an error. -/
theorem roundtrip_single (sha : Bytes → Str) (ord : GoMap TreeEntry → GoMap TreeEntry)
    (fuel : Nat) (name hash root : Str) (st : Store) (r : GoMap Str)
    (hw : treeNode.Write sha ord (.mk [("a".toList, .mk [] [(name, hash)])] []) []
      = .ok (root, st))
    (hr : recursivelyGetHashes st fuel root [] [] = (r, none)) :
    r = [("a/".toList ++ name, hash)] := by
  simp only [treeNode.Write, writeSubtrees, WriteTree, List.foldl, GoMap.set] at hw
  generalize HashTree sha ord [(name, ({ ObjType := "Blob".toList, Hash := hash } : TreeEntry))]
    = A at hw
  cases hpa : GetHashPath A with
  | error f => simp [hpa] at hw
  | ok pa =>
    simp only [hpa] at hw
    generalize HashTree sha ord [("a".toList, ({ ObjType := "Tree".toList, Hash := A } : TreeEntry))]
      = B at hw
    cases hpb : GetHashPath B with
    | error f => simp [hpb] at hw
    | ok pb =>
      simp only [hpb] at hw
      injection hw with hw
      injection hw with h1 h2
      subst h1 h2
      by_cases hab : pa = pb
      · subst hab
        have hAB : A = B := GetHashPath_inj hpa hpb
        subst hAB
        simp only [GoMap.set, if_true] at hr
        have hc := recursivelyGetHashes_cyclic A pa hpa fuel [] []
        rw [hr] at hc
        cases hc
      · cases fuel with
        | zero => simp [recursivelyGetHashes] at hr
        | succ n =>
          have hba : ¬ pb = pa := fun h => hab h.symm
          cases n with
          | zero =>
            simp [recursivelyGetHashes, ReadAsTree, hpb, hpa, GoMap.get, GoMap.set, hab, hba,
              getHashesLoop] at hr
          | succ k =>
            simp [recursivelyGetHashes, ReadAsTree, hpb, hpa, GoMap.get, GoMap.set, hab, hba,
              getHashesLoop] at hr
            simp [hr]

/-- C1 (defect of generateTreeNode): for the flat index with the two files
`a/x` and `a/y`, in either iteration order of the index, for every digest and
every iteration order of the tree entries, whenever `generateTreeNode(m).Write()`
returns a root hash and `recursivelyGetHashes(root, {}, "")` returns without
error, the flattened map holds only the file visited last: the other file is
lost, so the map is not equal to the index. -/
theorem C1_roundtrip_loses_sibling (sha : Bytes → Str)
    (ord : GoMap TreeEntry → GoMap TreeEntry) (fuel : Nat) (m : GoMap Str)
    (root : Str) (st : Store) (r : GoMap Str)
    (hm : m = twoSiblings ∨ m = twoSiblings.reverse)
    (hw : treeNode.Write sha ord (generateTreeNode m) [] = .ok (root, st))
    (hr : recursivelyGetHashes st fuel root [] [] = (r, none)) :
    r.get "a/x".toList = none ∨ r.get "a/y".toList = none := by
  rcases hm with hm | hm
  · subst hm
    rw [generateTreeNode_twoSiblings] at hw
    have := roundtrip_single sha ord fuel _ _ root st r hw hr
    subst this
    left
    decide
  · subst hm
    rw [generateTreeNode_twoSiblings_reversed] at hw
    have := roundtrip_single sha ord fuel _ _ root st r hw hr
    subst this
    right
    decide

/-- C1, at the stand-in digest: the two-file index is written and flattened
without error, and `a/x` is missing from the result. -/
theorem C1_roundtrip_loses_sibling_witness :
    GoMap.get [("a/y".toList, "h2".toList)] "a/x".toList = none
      ∨ GoMap.get [("a/y".toList, "h2".toList)] "a/y".toList = none :=
  C1_roundtrip_loses_sibling demoSha id 2 twoSiblings
    (demoSha (utf8 (treeHashInput [("a".toList,
      { ObjType := "Tree".toList,
        Hash := demoSha (utf8 (treeHashInput [("y".toList,
          { ObjType := "Blob".toList, Hash := "h2".toList })])) })])))
    _ [("a/y".toList, "h2".toList)] (Or.inl rfl) rfl rfl

/-- C2 (defect of HashTree): the string HashTree hashes lists the entries in the
iteration order of the map.  For the tree with the blobs `x` and `y` the two
orders give two different byte strings, so for every digest the two hashes are
the digests of different inputs; with the stand-in digest the root hashes that
`generateTreeNode(m).Write()` returns for the index with `x` and `y` differ. -/
theorem C2_HashTree_depends_on_order :
    (∀ sha : Bytes → Str,
      HashTree sha id twoBlobs = sha (utf8 "xBlobh1\nyBlobh2\n".toList)
      ∧ HashTree sha List.reverse twoBlobs = sha (utf8 "yBlobh2\nxBlobh1\n".toList))
    ∧ utf8 "xBlobh1\nyBlobh2\n".toList ≠ utf8 "yBlobh2\nxBlobh1\n".toList
    ∧ (treeNode.Write demoSha id
          (generateTreeNode [("x".toList, "h1".toList), ("y".toList, "h2".toList)]) []).map
          Prod.fst
        = .ok (demoSha (utf8 "xBlobh1\nyBlobh2\n".toList))
    ∧ (treeNode.Write demoSha List.reverse
          (generateTreeNode [("x".toList, "h1".toList), ("y".toList, "h2".toList)]) []).map
          Prod.fst
        = .ok (demoSha (utf8 "yBlobh2\nxBlobh1\n".toList))
    ∧ demoSha (utf8 "xBlobh1\nyBlobh2\n".toList) ≠ demoSha (utf8 "yBlobh2\nxBlobh1\n".toList) := by
  refine ⟨fun sha => ⟨rfl, rfl⟩, by decide, rfl, rfl, by decide⟩

/-- C5 (defect of ClearWorkingTree): with the untracked file `sub/u.txt` in
the set to leave alone, the walk reaches the directory `sub` first, which is
not in the set, removes it with everything below and skips it: the untracked
file is gone after the call. -/
theorem C5_ClearWorkingTree_removes_nested_untracked :
    filesOf ".".toList untrackedInSub = [("sub/u.txt".toList, [117])]
    ∧ (FromSlice ["sub/u.txt".toList]).get "sub/u.txt".toList = some true
    ∧ filesOf ".".toList (ClearWorkingTree (FromSlice ["sub/u.txt".toList]) untrackedInSub) = [] := by
  decide

/-! ## Checkout: theorems -/

/-- With drift present switchTo returns the error "uncommitted changes" and the state it was given. -/
theorem switchTo_drift (sha : Bytes → Str) (hc : HeadContent) (s : Repo)
    (u st : GoMap Status) (ut : List Str)
    (hs : GetStatus sha s = .ok (u, st, ut)) (hd : u.length + st.length ≠ 0) :
    switchTo sha hc s = (.error (.err .uncommittedChanges), s) := by
  unfold switchTo
  cases hst : Staged s with
  | error f => simp [GetStatus, hst] at hs
  | ok currentHashes => simp [hs, hd]

/-- C3 (defect of checkoutLocation): when `loc` names an existing branch and
detach is not requested, checkoutLocation drops the value switchTo returns.
With drift present switchTo returns the error "uncommitted changes", and
checkoutLocation returns nil. -/
theorem C3_checkoutLocation_branch_returns_nil (sha : Bytes → Str) (s : Repo) (loc c : Str)
    (u st : GoMap Status) (ut : List Str)
    (hb : ReadBranch s loc = .ok c)
    (hs : GetStatus sha s = .ok (u, st, ut)) (hd : u.length + st.length ≠ 0) :
    switchTo sha { Detached := false, Location := loc } s = (.error (.err .uncommittedChanges), s)
    ∧ checkoutLocation sha loc false s = (.ok (), s) := by
  have h := switchTo_drift sha { Detached := false, Location := loc } s u st ut hs hd
  refine ⟨h, ?_⟩
  simp [checkoutLocation, hb, h]

/-- C3 at the repository with an edited tracked file: `checkout main` returns nil. -/
theorem C3_checkoutLocation_branch_returns_nil_witness :
    ReadBranch driftRepo "main".toList = .ok "c1c1".toList
    ∧ GetStatus demoSha driftRepo = .ok ([("a.txt".toList, Status.Modified)], [], [])
    ∧ switchTo demoSha { Detached := false, Location := "main".toList } driftRepo
        = (.error (.err .uncommittedChanges), driftRepo)
    ∧ checkoutLocation demoSha "main".toList false driftRepo = (.ok (), driftRepo) :=
  ⟨rfl, rfl,
   C3_checkoutLocation_branch_returns_nil demoSha driftRepo "main".toList "c1c1".toList
     [("a.txt".toList, Status.Modified)] [] [] rfl rfl (by decide)⟩

/-- C4: when GetStatus reports unstaged or staged drift, switchTo returns the
error "uncommitted changes" and leaves the repository (working directory,
index, branch refs, HEAD and object store) exactly as it was, for every target
HeadContent; checkoutLocation, for every location and detach flag, leaves the
repository as it was too. -/
theorem C4_switchTo_no_mutation_on_drift (sha : Bytes → Str) (hc : HeadContent) (s : Repo)
    (u st : GoMap Status) (ut : List Str)
    (hs : GetStatus sha s = .ok (u, st, ut)) (hd : u.length + st.length ≠ 0) :
    (switchTo sha hc s).1 = .error (.err .uncommittedChanges)
    ∧ (switchTo sha hc s).2 = s
    ∧ ∀ (loc : Str) (detach : Bool), (checkoutLocation sha loc detach s).2 = s := by
  have h := fun hc => switchTo_drift sha hc s u st ut hs hd
  refine ⟨by rw [h], by rw [h], ?_⟩
  intro loc detach
  unfold checkoutLocation
  cases detach with
  | true =>
    cases hb : ReadBranch s loc with
    | error f => simp
    | ok c => simp [h]
  | false =>
    cases hb : ReadBranch s loc with
    | ok c => simp [h]
    | error f =>
      cases f with
      | err e =>
        cases e <;> simp
        cases he : ExpandHash s.objects loc with
        | error f => simp
        | ok hash =>
          by_cases hh : hash = []
          · simp [hh]
          · simp [hh, h]
      | panicSlice => simp
      | panicState => simp
      | diverge => simp
      | outside => simp

/-- C4 at the repository with an edited tracked file, for the target branch `feature`. -/
theorem C4_switchTo_no_mutation_on_drift_witness :
    GetStatus demoSha driftRepo = .ok ([("a.txt".toList, Status.Modified)], [], [])
    ∧ (switchTo demoSha { Detached := false, Location := "feature".toList } driftRepo).1
        = .error (.err .uncommittedChanges)
    ∧ (switchTo demoSha { Detached := false, Location := "feature".toList } driftRepo).2
        = driftRepo
    ∧ ∀ (loc : Str) (detach : Bool), (checkoutLocation demoSha loc detach driftRepo).2 = driftRepo :=
  ⟨rfl, C4_switchTo_no_mutation_on_drift demoSha _ driftRepo
    [("a.txt".toList, Status.Modified)] [] [] rfl (by decide)⟩

/-! ## HEAD: theorems -/

/-- C9, as the claim states it, fails right after InitializeRepo: HeadCommit returns an error value. -/
theorem C9_HeadCommit_after_init_is_error :
    (InitializeRepo []).toOption.map HeadCommit = some (.error (.err .refsNotFound)) := by
  rfl

/-- C9 (amended): HeadCommit on a repository with no commit yet.  When the
Location of HEAD is empty (HEAD names no location), HeadCommit returns the
empty hash with a nil error.  When HEAD is attached to a branch whose name is a
file name for which `.lit/refs/heads` has no entry, as right after
InitializeRepo, HeadCommit returns the sentinel error ErrNotFound (with the
empty hash); StagedChanges takes this error for "no commit yet" and reports
every path of the index as Created. -/
theorem C9_HeadCommit_no_commit_yet (s : Repo) (hc : HeadContent) (hashes : GoMap Str)
    (hh : s.head = some hc) :
    (hc.Location = [] → HeadCommit s = .ok [])
    ∧ (hc.Detached = false → refTarget hc.Location = .entry → s.heads.get hc.Location = none →
        HeadCommit s = .error (.err .refsNotFound)
        ∧ StagedChanges hashes s
            = .ok ((copyMap hashes).foldl
                (fun stagedStatus e => stagedStatus.set e.1 .Created) [])) := by
  constructor
  · intro hl
    simp [HeadCommit, ReadHead, hh, hl]
  · intro hd ht hn
    have hl : hc.Location ≠ [] := by
      intro h0
      rw [h0] at ht
      simp [refTarget] at ht
    have h : HeadCommit s = .error (.err .refsNotFound) := by
      simp [HeadCommit, ReadHead, hh, hl, hd, ReadBranch, BranchExists, ht, hn]
    exact ⟨h, by simp [StagedChanges, h]⟩

/-- C9 (amended) at the repository InitializeRepo creates in an empty
directory, and at that repository with a HEAD whose Location is empty. -/
theorem C9_HeadCommit_no_commit_yet_witness :
    InitializeRepo [] = .ok freshRepo
    ∧ HeadCommit freshRepo = .error (.err .refsNotFound)
    ∧ StagedChanges [("a.txt".toList, "h1".toList)] freshRepo
        = .ok ((copyMap [("a.txt".toList, "h1".toList)]).foldl
            (fun stagedStatus e => stagedStatus.set e.1 .Created) [])
    ∧ HeadCommit { freshRepo with head := some { Detached := false, Location := [] } } = .ok [] :=
  ⟨rfl,
   ((C9_HeadCommit_no_commit_yet freshRepo { Detached := false, Location := "main".toList }
      [("a.txt".toList, "h1".toList)] rfl).2 rfl (by decide) rfl).1,
   ((C9_HeadCommit_no_commit_yet freshRepo { Detached := false, Location := "main".toList }
      [("a.txt".toList, "h1".toList)] rfl).2 rfl (by decide) rfl).2,
   (C9_HeadCommit_no_commit_yet { freshRepo with head := some { Detached := false, Location := [] } }
      { Detached := false, Location := [] } [] rfl).1 rfl⟩

/-- C10 (defect of SetHeadTo): for a detached HeadContent whose Location has
fewer than two bytes, HashIsCommit reaches `hash[:FolderCharacters]` in
GetHashPath and the call panics instead of returning ErrNotFound. -/
theorem C10_SetHeadTo_short_hash_panics (s : Repo) (loc : Str) (hl : (utf8 loc).length < 2) :
    (SetHeadTo { Detached := true, Location := loc } s).1 = .error .panicSlice := by
  simp [SetHeadTo, HashIsCommit, ReadAsCommit, GetHashPath, FolderCharacters, hl]

/-- C10 at the empty Location, in the repository InitializeRepo creates. -/
theorem C10_SetHeadTo_short_hash_panics_witness :
    (SetHeadTo { Detached := true, Location := [] } freshRepo).1 = .error .panicSlice :=
  C10_SetHeadTo_short_hash_panics freshRepo [] (by decide)

/-! ## Maps: lemmas -/

theorem GoMap.get_set_self {V : Type} (m : GoMap V) (k : Str) (v : V) :
    (m.set k v).get k = some v := by
  induction m with
  | nil => simp [GoMap.set, GoMap.get]
  | cons e m ih =>
    obtain ⟨k0, v0⟩ := e
    by_cases h : k0 = k
    · simp [GoMap.set, GoMap.get, h]
    · simp [GoMap.set, GoMap.get, h, ih]

theorem GoMap.get_set_other {V : Type} (m : GoMap V) (k k1 : Str) (v : V) (h : k ≠ k1) :
    (m.set k v).get k1 = m.get k1 := by
  induction m with
  | nil => simp [GoMap.set, GoMap.get, h]
  | cons e m ih =>
    obtain ⟨k0, v0⟩ := e
    by_cases h0 : k0 = k
    · subst h0
      simp [GoMap.set, GoMap.get, h]
    · by_cases h1 : k0 = k1
      · subst h1
        simp [GoMap.set, GoMap.get, h0]
      · simp [GoMap.set, GoMap.get, h0, h1, ih]

/-! ## Blobs: theorems -/

theorem char_range (c : Char) :
    c.toNat < 0xD800 ∨ (0xDFFF < c.toNat ∧ c.toNat < 0x110000) := by
  have h := c.valid
  simp only [UInt32.isValidChar, Nat.isValidChar] at h
  exact h

theorem DecodeRune_encode (c : Char) (rest : Bytes) :
    DecodeRune (utf8EncodeRune c ++ rest) = (c, (utf8EncodeRune c).length) := by
  have hr := char_range c
  have hc : Char.ofNat c.toNat = c := Char.ofNat_toNat c
  unfold utf8EncodeRune
  simp only []
  generalize c.toNat = n at hr hc
  by_cases h1 : n < 0x80
  · simp [h1, DecodeRune, hc]
  · by_cases h2 : n < 0x800
    · simp only [h1, h2, if_true, if_false, List.cons_append, List.nil_append, DecodeRune, isCont]
      have a1 : ¬ (0xC0 + n / 64 < 0x80) := by omega
      have a2 : 0xC2 ≤ 0xC0 + n / 64 ∧ 0xC0 + n / 64 ≤ 0xDF := by omega
      have a3 : 0x80 ≤ 0x80 + n % 64 := by omega
      have a4 : 0x80 + n % 64 ≤ 0xBF := by omega
      have e : (0xC0 + n / 64 - 0xC0) * 64 + (0x80 + n % 64 - 0x80) = n := by omega
      rw [if_neg a1, if_pos a2, e, hc]
      simp [a3, a4]
    · by_cases h3 : n < 0x10000
      · simp only [h1, h2, h3, if_true, if_false, List.cons_append, List.nil_append, DecodeRune,
          isCont]
        have a1 : ¬ (0xE0 + n / 4096 < 0x80) := by omega
        have a2 : ¬ (0xC2 ≤ 0xE0 + n / 4096 ∧ 0xE0 + n / 4096 ≤ 0xDF) := by omega
        have a3 : 0xE0 ≤ 0xE0 + n / 4096 ∧ 0xE0 + n / 4096 ≤ 0xEF := by omega
        have e : (0xE0 + n / 4096 - 0xE0) * 4096 + (0x80 + n / 64 % 64 - 0x80) * 64
            + (0x80 + n % 64 - 0x80) = n := by omega
        rw [if_neg a1, if_neg a2, if_pos a3, e, hc]
        have b1 : 0x80 ≤ 0x80 + n % 64 := by omega
        have b2 : 0x80 + n % 64 ≤ 0xBF := by omega
        have b3 : 0x80 ≤ 0x80 + n / 64 % 64 := by omega
        have b4 : 0x80 + n / 64 % 64 ≤ 0xBF := by omega
        by_cases c1 : 0xE0 + n / 4096 = 0xE0
        · have b5 : 0xA0 ≤ 0x80 + n / 64 % 64 := by omega
          simp [c1, b1, b2, b4, b5]
        · by_cases c2 : 0xE0 + n / 4096 = 0xED
          · have b6 : 0x80 + n / 64 % 64 ≤ 0x9F := by omega
            simp [c2, b1, b2, b3, b6]
          · simp [c1, c2, b1, b2, b3, b4]
      · simp only [h1, h2, h3, if_true, if_false, List.cons_append, List.nil_append, DecodeRune,
          isCont]
        have a1 : ¬ (0xF0 + n / 262144 < 0x80) := by omega
        have a2 : ¬ (0xC2 ≤ 0xF0 + n / 262144 ∧ 0xF0 + n / 262144 ≤ 0xDF) := by omega
        have a3 : ¬ (0xE0 ≤ 0xF0 + n / 262144 ∧ 0xF0 + n / 262144 ≤ 0xEF) := by omega
        have a4 : 0xF0 ≤ 0xF0 + n / 262144 ∧ 0xF0 + n / 262144 ≤ 0xF4 := by omega
        have e : (0xF0 + n / 262144 - 0xF0) * 262144 + (0x80 + n / 4096 % 64 - 0x80) * 4096
            + (0x80 + n / 64 % 64 - 0x80) * 64 + (0x80 + n % 64 - 0x80) = n := by omega
        rw [if_neg a1, if_neg a2, if_neg a3, if_pos a4, e, hc]
        have b1 : 0x80 ≤ 0x80 + n % 64 := by omega
        have b2 : 0x80 + n % 64 ≤ 0xBF := by omega
        have b3 : 0x80 ≤ 0x80 + n / 64 % 64 := by omega
        have b4 : 0x80 + n / 64 % 64 ≤ 0xBF := by omega
        have b5 : 0x80 ≤ 0x80 + n / 4096 % 64 := by omega
        have b6 : 0x80 + n / 4096 % 64 ≤ 0xBF := by omega
        by_cases c1 : 0xF0 + n / 262144 = 0xF0
        · have b7 : 0x90 ≤ 0x80 + n / 4096 % 64 := by omega
          simp [c1, b1, b2, b3, b4, b6, b7]
        · by_cases c2 : 0xF0 + n / 262144 = 0xF4
          · have b8 : 0x80 + n / 4096 % 64 ≤ 0x8F := by omega
            simp [c2, b1, b2, b3, b4, b5, b8]
          · simp [c1, c2, b1, b2, b3, b4, b5, b6]

theorem utf8EncodeRune_length_pos (c : Char) : 1 ≤ (utf8EncodeRune c).length := by
  unfold utf8EncodeRune
  simp only []
  split
  · simp
  · split
    · simp
    · split <;> simp

theorem decodeFrom_skip (pre rest : Bytes) : decodeFrom pre.length (pre ++ rest) = decodeFrom 0 rest := by
  induction pre with
  | nil => rfl
  | cons b pre ih => simpa [decodeFrom] using ih

theorem jsonString_utf8 (t : Str) : jsonString (utf8 t) = t := by
  unfold jsonString
  induction t with
  | nil => rfl
  | cons c t ih =>
    have hl := utf8EncodeRune_length_pos c
    have hd := DecodeRune_encode c (utf8 t)
    simp only [utf8]
    cases he : utf8EncodeRune c with
    | nil => simp [he] at hl
    | cons b pre =>
      rw [he] at hd
      simp only [List.cons_append] at hd ⊢
      simp only [decodeFrom, hd, List.length_cons, Nat.add_sub_cancel]
      rw [decodeFrom_skip, ih]

/-- C6 (defect of BlobToJSON): the bytes are stored as a JSON string, which
holds text, not bytes.  WriteBlob of the single byte 0xFF returns the hash of
that byte, and the blob read back under this hash holds the three bytes of
U+FFFD: the content is not the content written, and its hash is not the hash it
is stored under. -/
theorem C6_blob_roundtrip_fails_on_invalid_utf8 :
    (WriteBlob demoSha [0xFF] []).map Prod.fst = .ok (Hash demoSha [0xFF])
    ∧ (match WriteBlob demoSha [0xFF] [] with
      | .ok (h, st) => (ReadAsBlob st h).map utf8
      | .error f => .error f) = .ok [0xEF, 0xBF, 0xBD]
    ∧ ([0xEF, 0xBF, 0xBD] : Bytes) ≠ [0xFF]
    ∧ Hash demoSha [0xEF, 0xBF, 0xBD] ≠ Hash demoSha [0xFF] := by
  exact ⟨rfl, rfl, by decide, by decide⟩

/-- Where the bytes are the UTF-8 encoding of a text `t` the round trip holds:
if WriteBlob returns the hash `h`, then `h` is the digest of the bytes, it is
not empty, and ReadAsBlob of `h` succeeds and returns exactly these bytes. -/
theorem blob_roundtrip_utf8 (sha : Bytes → Str) (t : Str) (st st1 : Store) (h : Str)
    (hw : WriteBlob sha (utf8 t) st = .ok (h, st1)) :
    h = Hash sha (utf8 t) ∧ h ≠ [] ∧ (ReadAsBlob st1 h).map utf8 = .ok (utf8 t) := by
  unfold WriteBlob at hw
  simp only [] at hw
  cases hp : GetHashPath (Hash sha (utf8 t)) with
  | error f => simp [hp] at hw
  | ok p =>
    simp only [hp] at hw
    injection hw with hw
    injection hw with h1 h2
    subst h1 h2
    refine ⟨rfl, ?_, ?_⟩
    · intro h0
      rw [h0] at hp
      simp [GetHashPath, FolderCharacters, utf8] at hp
    · simp [ReadAsBlob, hp, GoMap.get_set_self, jsonString_utf8, Except.map]

/-- The round trip at the text "hello" and the empty store. -/
theorem blob_roundtrip_utf8_example :
    WriteBlob demoSha (utf8 "hello".toList) []
      = .ok (demoSha (utf8 "hello".toList),
             [(".lit/objects/h:/hello".toList, .blob "hello".toList)])
    ∧ demoSha (utf8 "hello".toList) = Hash demoSha (utf8 "hello".toList)
    ∧ demoSha (utf8 "hello".toList) ≠ []
    ∧ (ReadAsBlob [(".lit/objects/h:/hello".toList, .blob "hello".toList)]
        (demoSha (utf8 "hello".toList))).map utf8 = .ok (utf8 "hello".toList) :=
  ⟨rfl, blob_roundtrip_utf8 demoSha "hello".toList [] _ _ rfl⟩

theorem GoMap.keys_cons {V : Type} (k : Str) (v : V) (m : GoMap V) :
    GoMap.keys ((k, v) :: m) = k :: GoMap.keys m := rfl

theorem GoMap.keys_nil {V : Type} : GoMap.keys ([] : GoMap V) = [] := rfl

theorem GoMap.keys_append {V : Type} (a b : GoMap V) :
    GoMap.keys (a ++ b) = GoMap.keys a ++ GoMap.keys b := by
  simp [GoMap.keys]

theorem GoMap.get_delete {V : Type} (m : GoMap V) (k p : Str) :
    (m.delete k).get p = if p = k then none else m.get p := by
  induction m with
  | nil => simp [GoMap.delete, GoMap.get]
  | cons e m ih =>
    obtain ⟨k0, v0⟩ := e
    by_cases h0 : k0 = k
    · subst h0
      by_cases hp : p = k0
      · subst hp
        simp [GoMap.delete, GoMap.get, ih]
      · have hp2 : ¬ k0 = p := fun h => hp h.symm
        simp [GoMap.delete, GoMap.get, ih, hp, hp2]
    · by_cases hp : p = k
      · subst hp
        simp [GoMap.delete, GoMap.get, ih, h0]
      · by_cases h1 : k0 = p
        · subst h1
          simp [GoMap.delete, GoMap.get, h0]
        · simp [GoMap.delete, GoMap.get, ih, h0, hp, h1]

theorem GoMap.get_eq_none_iff {V : Type} (m : GoMap V) (p : Str) :
    m.get p = none ↔ p ∉ m.keys := by
  induction m with
  | nil => simp [GoMap.get, GoMap.keys_nil]
  | cons e m ih =>
    obtain ⟨k0, v0⟩ := e
    by_cases h : k0 = p
    · simp [GoMap.get, GoMap.keys_cons, h]
    · have h2 : ¬ p = k0 := fun x => h x.symm
      simp [GoMap.get, GoMap.keys_cons, h, h2, ih]

theorem GoMap.get_isSome_iff {V : Type} (m : GoMap V) (p : Str) :
    (m.get p).isSome ↔ p ∈ m.keys := by
  rw [← not_iff_not, ← GoMap.get_eq_none_iff]
  cases m.get p <;> simp

theorem GoMap.keys_set {V : Type} (m : GoMap V) (k : Str) (v : V) :
    (m.set k v).keys = if k ∈ m.keys then m.keys else m.keys ++ [k] := by
  induction m with
  | nil => simp [GoMap.set, GoMap.keys_nil, GoMap.keys_cons]
  | cons e m ih =>
    obtain ⟨k0, v0⟩ := e
    by_cases h : k0 = k
    · simp [GoMap.set, GoMap.keys_cons, h]
    · have h2 : ¬ k = k0 := fun x => h x.symm
      simp only [GoMap.set, GoMap.keys_cons, h, if_false, ih, List.mem_cons, h2, false_or]
      split <;> simp

theorem GoMap.nodup_set {V : Type} (m : GoMap V) (k : Str) (v : V) (h : m.keys.Nodup) :
    (m.set k v).keys.Nodup := by
  rw [GoMap.keys_set]
  split
  · exact h
  · next hk =>
    rw [List.nodup_append]
    refine ⟨h, by simp, ?_⟩
    intro a ha hb
    simp at hb
    subst hb
    exact hk ha

theorem GoMap.get_foldl_set_const {V W : Type} (l : GoMap W) (c : V) (m : GoMap V) (p : Str) :
    (l.foldl (fun r e => r.set e.1 c) m).get p = if p ∈ l.keys then some c else m.get p := by
  induction l generalizing m with
  | nil => simp [GoMap.keys_nil]
  | cons e l ih =>
    obtain ⟨k0, w0⟩ := e
    simp only [List.foldl_cons, ih, GoMap.keys_cons, List.mem_cons]
    by_cases h1 : p ∈ GoMap.keys l
    · simp [h1]
    · by_cases h2 : p = k0
      · subst h2
        simp [h1, GoMap.get_set_self]
      · have h3 : k0 ≠ p := fun x => h2 x.symm
        simp [h1, h2, GoMap.get_set_other _ _ _ _ h3]

theorem GoMap.foldl_set_append (l acc : GoMap Str) (h : (acc ++ l).keys.Nodup) :
    l.foldl (fun t e => t.set e.1 e.2) acc = acc ++ l := by
  induction l generalizing acc with
  | nil => simp
  | cons e l ih =>
    obtain ⟨k0, v0⟩ := e
    have hk : k0 ∉ acc.keys := by
      rw [GoMap.keys_append, GoMap.keys_cons, List.nodup_append] at h
      intro hin
      exact h.2.2 hin (List.mem_cons_self _ _)
    have hs : acc.set k0 v0 = acc ++ [(k0, v0)] := by
      clear h ih
      induction acc with
      | nil => rfl
      | cons a acc iha =>
        obtain ⟨k1, v1⟩ := a
        simp only [GoMap.keys_cons, List.mem_cons, not_or] at hk
        have h1 : ¬ k1 = k0 := fun x => hk.1 x.symm
        simp [GoMap.set, h1, iha hk.2]
    simp only [List.foldl_cons, hs]
    rw [ih]
    · simp
    · simpa using h

theorem copyMap_eq (m : GoMap Str) (h : m.keys.Nodup) : copyMap m = m := by
  unfold copyMap
  rw [GoMap.foldl_set_append m [] (by simpa using h)]
  simp


/-! ## Staged drift: theorems -/

theorem stagedStep_fold (l : GoMap Str) (hnd : l.keys.Nodup) (H0 : GoMap Str)
    (S0 : GoMap Status) (p : Str) :
    (l.foldl stagedStep (H0, S0)).1.get p = (if (l.get p).isSome then none else H0.get p)
    ∧ (l.foldl stagedStep (H0, S0)).2.get p =
        (match l.get p with
          | none => S0.get p
          | some t =>
            match H0.get p with
            | none => some .Deleted
            | some i => if t ≠ i then some .Modified else S0.get p) := by
  induction l generalizing H0 S0 with
  | nil => simp [GoMap.get]
  | cons e l ih =>
    obtain ⟨k, t⟩ := e
    rw [GoMap.keys_cons, List.nodup_cons] at hnd
    have hk : GoMap.get l k = none := (GoMap.get_eq_none_iff l k).2 hnd.1
    simp only [List.foldl_cons]
    by_cases hp : k = p
    · subst hp
      cases hH : H0.get k with
      | none =>
        have := ih hnd.2 (H0.delete k) (S0.set k .Deleted)
        simp only [stagedStep, hH]
        simp [this, hk, GoMap.get, GoMap.get_delete, GoMap.get_set_self, hH]
      | some i =>
        by_cases hti : t = i
        · have := ih hnd.2 (H0.delete k) S0
          simp only [stagedStep, hH, hti]
          simp [this, hk, GoMap.get, GoMap.get_delete, hH]
        · have := ih hnd.2 (H0.delete k) (S0.set k .Modified)
          simp only [stagedStep, hH]
          simp [this, hk, GoMap.get, GoMap.get_delete, GoMap.get_set_self, hH, hti]
    · have hp2 : ¬ p = k := fun x => hp x.symm
      have hS : ∀ v, (S0.set k v).get p = S0.get p := fun v => GoMap.get_set_other S0 k p v hp
      cases hH : H0.get k with
      | none =>
        have := ih hnd.2 (H0.delete k) (S0.set k .Deleted)
        simp only [stagedStep, hH]
        simp [this, GoMap.get, GoMap.get_delete, hp, hp2, hS]
      | some i =>
        by_cases hti : t = i
        · have := ih hnd.2 (H0.delete k) S0
          simp only [stagedStep, hH, hti]
          simp [this, GoMap.get, GoMap.get_delete, hp, hp2]
        · have := ih hnd.2 (H0.delete k) (S0.set k .Modified)
          simp only [stagedStep, hH]
          simp [this, GoMap.get, GoMap.get_delete, hp, hp2, hS, hti]

theorem getHashesLoop_nodup
    (recurse : Str → GoMap Str → Str → GoMap Str × Option Fault)
    (hrec : ∀ h r b, r.keys.Nodup → (recurse h r b).1.keys.Nodup)
    (basePath : Str) (tree : List (Str × TreeEntry)) (result : GoMap Str)
    (hr : result.keys.Nodup) :
    (getHashesLoop recurse basePath tree result).1.keys.Nodup := by
  induction tree generalizing result with
  | nil => simpa [getHashesLoop] using hr
  | cons e tree ih =>
    obtain ⟨name, entry⟩ := e
    simp only [getHashesLoop]
    split
    · have h1 := hrec entry.Hash result (basePath ++ name ++ "/".toList) hr
      split
      · next r1 f heq => rw [heq] at h1; exact h1
      · next r1 heq => rw [heq] at h1; exact ih r1 h1
    · exact ih _ (GoMap.nodup_set _ _ _ hr)

theorem recursivelyGetHashes_nodup (st : Store) (fuel : Nat) :
    ∀ (hash : Str) (result : GoMap Str) (basePath : Str), result.keys.Nodup →
      (recursivelyGetHashes st fuel hash result basePath).1.keys.Nodup := by
  induction fuel with
  | zero => intro hash result basePath hr; simpa [recursivelyGetHashes] using hr
  | succ n ih =>
    intro hash result basePath hr
    simp only [recursivelyGetHashes]
    split
    · exact hr
    · exact getHashesLoop_nodup _ ih _ _ _ hr

theorem stagedClass_final (H : GoMap Str) (S : GoMap Status) (i t : Option Str) (p : Str)
    (hS : S.get p = (match t with
          | none => none
          | some t =>
            match i with
            | none => some .Deleted
            | some i => if t ≠ i then some .Modified else none))
    (hH : H.get p = if t.isSome then none else i) :
    (H.foldl (fun stagedStatus e => stagedStatus.set e.1 Status.Created) S).get p
      = stagedClass i t := by
  have hmem : p ∈ H.keys ↔ (H.get p).isSome := (GoMap.get_isSome_iff H p).symm
  simp only [GoMap.get_foldl_set_const, hmem, hH, hS]
  cases t <;> cases i <;> simp [stagedClass]

/-- Where StagedChanges returns a map, the map is the classification of the
specification.  For every index `I` (a map, so with distinct keys): when
HeadCommit returns ErrNotFound StagedChanges returns a map that holds Created
for exactly the paths of `I`; when HeadCommit returns the hash of a stored
commit, with `T` the map recursivelyGetHashes builds from the tree of that
commit, StagedChanges returns a map that holds Created exactly for the paths in
`I` and not in `T`, Modified exactly for the paths in both with different
hashes, Deleted exactly for the paths in `T` and not in `I`, and no entry for
any other path. -/
theorem StagedChanges_classification (I : GoMap Str) (s : Repo) (hI : I.keys.Nodup) :
    (HeadCommit s = .error (.err .refsNotFound) →
      ∀ p, (StagedChanges I s).map (fun r => r.get p) = .ok (stagedClass (I.get p) none))
    ∧ (∀ (h : Str) (com : Commit) (T : GoMap Str) (e : Option Fault),
        HeadCommit s = .ok h → ReadAsCommit s.objects h = .ok com →
        recursivelyGetHashes s.objects (depthBound s.objects) com.CommitTree [] [] = (T, e) →
        e ≠ some .panicSlice → e ≠ some .diverge → e ≠ some .outside →
        ∀ p, (StagedChanges I s).map (fun r => r.get p)
          = .ok (stagedClass (I.get p) (T.get p))) := by
  constructor
  · intro hh p
    simp only [StagedChanges, hh, Except.map, copyMap_eq I hI]
    congr 1
    have hmem : p ∈ GoMap.keys I ↔ (I.get p).isSome := (GoMap.get_isSome_iff I p).symm
    simp only [GoMap.get_foldl_set_const, hmem]
    cases I.get p <;> simp [stagedClass, GoMap.get]
  · intro h com T e hh hc hT he1 he2 he3 p
    have hnd : T.keys.Nodup := by
      have := recursivelyGetHashes_nodup s.objects (depthBound s.objects) com.CommitTree [] []
        (by simp [GoMap.keys])
      rw [hT] at this
      exact this
    have hfold := stagedStep_fold T hnd I [] p
    have hfin := stagedClass_final (T.foldl stagedStep (I, [])).1 (T.foldl stagedStep (I, [])).2
      (I.get p) (T.get p) p
      (by rw [hfold.2]; cases T.get p <;> cases I.get p <;> simp [GoMap.get])
      (by rw [hfold.1])
    simp only [StagedChanges, hh, hc, hT, copyMap_eq I hI]
    cases e with
    | none => simp only [Except.map, hfin]
    | some f =>
      cases f with
      | err x => simp only [Except.map, hfin]
      | panicSlice => exact absurd rfl he1
      | panicState => simp only [Except.map, hfin]
      | diverge => exact absurd rfl he2
      | outside => exact absurd rfl he3

/-- The classification at a repository without a commit and at one whose HEAD
commit holds three files. -/
theorem StagedChanges_classification_example :
    StagedChanges editedIndex freshRepo
      = .ok [("a.txt".toList, Status.Created), ("d/e.txt".toList, Status.Created),
             ("new.txt".toList, Status.Created)]
    ∧ (∀ p, (StagedChanges editedIndex freshRepo).map (fun r => r.get p)
        = .ok (stagedClass (editedIndex.get p) none))
    ∧ StagedChanges editedIndex committedRepo
      = .ok [("d/e.txt".toList, Status.Modified), ("gone.txt".toList, Status.Deleted),
             ("new.txt".toList, Status.Created)]
    ∧ (∀ p, (StagedChanges editedIndex committedRepo).map (fun r => r.get p)
        = .ok (stagedClass (editedIndex.get p)
            (GoMap.get [("a.txt".toList, "hA".toList), ("d/e.txt".toList, "hE".toList),
              ("gone.txt".toList, "hG".toList)] p))) :=
  ⟨rfl, (StagedChanges_classification editedIndex freshRepo (by decide)).1 rfl,
   rfl, (StagedChanges_classification editedIndex committedRepo (by decide)).2
     "c1c1".toList _ _ none rfl rfl rfl (by decide) (by decide) (by decide)⟩

/-- C8 (defect of StagedChanges): when the Location of HEAD is empty, HeadCommit
returns the empty hash with a nil error, its result for a HEAD that names no
commit.  StagedChanges hands the empty hash to ReadAsCommit, and GetHashPath
panics at `hash[:FolderCharacters]`: no map is returned, for any index. -/
theorem C8_StagedChanges_panics_on_empty_Location (I : GoMap Str) (s : Repo) (hc : HeadContent)
    (hh : s.head = some hc) (hl : hc.Location = []) :
    HeadCommit s = .ok [] ∧ StagedChanges I s = .error .panicSlice := by
  have h : HeadCommit s = .ok [] := by simp [HeadCommit, ReadHead, hh, hl]
  refine ⟨h, ?_⟩
  simp [StagedChanges, h, ReadAsCommit, GetHashPath, FolderCharacters, utf8]

/-- C8 in the repository InitializeRepo creates, after the call
SetHeadTo(HeadContent{Detached: false, Location: ""}), which returns nil. -/
theorem C8_StagedChanges_panics_on_empty_Location_witness :
    SetHeadTo { Detached := false, Location := [] } freshRepo
      = (.ok (), { freshRepo with head := some { Detached := false, Location := [] } })
    ∧ HeadCommit { freshRepo with head := some { Detached := false, Location := [] } } = .ok []
    ∧ StagedChanges [("a.txt".toList, "h1".toList)]
        { freshRepo with head := some { Detached := false, Location := [] } }
      = .error .panicSlice :=
  ⟨rfl, C8_StagedChanges_panics_on_empty_Location [("a.txt".toList, "h1".toList)]
    { freshRepo with head := some { Detached := false, Location := [] } }
    { Detached := false, Location := [] } rfl rfl⟩

/-! ## Unstaged drift: theorems -/

mutual
theorem unstagedWalk_files (sha : Bytes → Str) (path : Str) :
    (n : Node) → (acc : UnstagedAcc) → Node.wellNamed path n = true →
      unstagedWalk sha path n acc
        = ((Node.files path n).foldl (fun a e => unstagedVisit sha e.1 e.2 a) acc, false)
  | .file data, acc, h => by
    simp only [Node.wellNamed, Bool.and_eq_true, decide_eq_true_eq] at h
    obtain ⟨⟨h1, h2⟩, h3⟩ := h
    simp at h2 h3
    simp [unstagedWalk, Node.files, h1, h2, h3]
  | .dir entries, acc, h => by
    simp only [Node.wellNamed, Bool.and_eq_true, decide_eq_true_eq] at h
    obtain ⟨⟨⟨h1, h2⟩, h3⟩, h4⟩ := h
    simp at h2 h3
    simp [unstagedWalk, Node.files, h1, h2, unstagedEntries_files sha path entries acc h4]
theorem unstagedEntries_files (sha : Bytes → Str) (dir : Str) :
    (es : List (Str × Node)) → (acc : UnstagedAcc) → wellNamedEntries dir es = true →
      unstagedEntries sha dir es acc
        = (filesOf dir es).foldl (fun a e => unstagedVisit sha e.1 e.2 a) acc
  | [], acc, _ => by simp [unstagedEntries, filesOf]
  | (name, n) :: rest, acc, h => by
    simp only [wellNamedEntries, Bool.and_eq_true] at h
    simp [unstagedEntries, filesOf, unstagedWalk_files sha (joinPath dir name) n acc h.1,
      unstagedEntries_files sha dir rest _ h.2]
end

theorem unstagedVisit_fold (sha : Bytes → Str) (W : GoMap Bytes) (hnd : W.keys.Nodup)
    (acc0 : UnstagedAcc) (p : Str) :
    (W.foldl (fun a e => unstagedVisit sha e.1 e.2 a) acc0).staged.get p
        = (if (W.get p).isSome then none else acc0.staged.get p)
    ∧ (p ∈ (W.foldl (fun a e => unstagedVisit sha e.1 e.2 a) acc0).untracked
        ↔ p ∈ acc0.untracked ∨ ((W.get p).isSome ∧ acc0.staged.get p = none))
    ∧ (W.foldl (fun a e => unstagedVisit sha e.1 e.2 a) acc0).unstagedResult.get p
        = (match W.get p with
            | none => acc0.unstagedResult.get p
            | some data =>
              match acc0.staged.get p with
              | none => acc0.unstagedResult.get p
              | some i =>
                if Hash sha data ≠ i then some .Modified else acc0.unstagedResult.get p) := by
  induction W generalizing acc0 with
  | nil => simp [GoMap.get]
  | cons e W ih =>
    obtain ⟨k, d⟩ := e
    rw [GoMap.keys_cons, List.nodup_cons] at hnd
    have hk : GoMap.get W k = none := (GoMap.get_eq_none_iff W k).2 hnd.1
    have hih := ih hnd.2 (unstagedVisit sha k d acc0)
    simp only [List.foldl_cons]
    refine ⟨?_, ?_, ?_⟩
    · rw [hih.1]
      by_cases hp : k = p
      · subst hp
        simp only [hk, GoMap.get, if_true, Option.isSome_some, Option.isSome_none]
        unfold unstagedVisit
        cases acc0.staged.get k with
        | none => simp [GoMap.get_delete]
        | some i => by_cases hh : Hash sha d = i <;> simp [hh, GoMap.get_delete]
      · have hp2 : ¬ p = k := fun x => hp x.symm
        simp only [GoMap.get, hp, if_false]
        congr 1
        unfold unstagedVisit
        cases acc0.staged.get k with
        | none => simp [GoMap.get_delete, hp2]
        | some i => by_cases hh : Hash sha d = i <;> simp [hh, GoMap.get_delete, hp2]
    · rw [hih.2.1]
      by_cases hp : k = p
      · subst hp
        simp only [hk, GoMap.get, if_true, Option.isSome_some, Option.isSome_none]
        unfold unstagedVisit
        cases hs : acc0.staged.get k with
        | none => simp
        | some i => by_cases hh : Hash sha d = i <;> simp [hh]
      · have hp2 : ¬ p = k := fun x => hp x.symm
        simp only [GoMap.get, hp, if_false]
        unfold unstagedVisit
        cases hs : acc0.staged.get k with
        | none => simp [GoMap.get_delete, hp2]
        | some i => by_cases hh : Hash sha d = i <;> simp [hh, GoMap.get_delete, hp2]
    · rw [hih.2.2]
      by_cases hp : k = p
      · subst hp
        simp only [hk, GoMap.get, if_true]
        unfold unstagedVisit
        cases hs : acc0.staged.get k with
        | none => simp
        | some i => by_cases hh : Hash sha d = i <;> simp [hh, GoMap.get_set_self]
      · have hp2 : ¬ p = k := fun x => hp x.symm
        simp only [GoMap.get, hp, if_false]
        unfold unstagedVisit
        cases hs : acc0.staged.get k with
        | none => simp [GoMap.get_delete, hp2]
        | some i =>
          by_cases hh : Hash sha d = i <;>
            simp [hh, GoMap.get_delete, hp2, GoMap.get_set_other _ _ _ _ hp]

theorem get_foldl_set_clean (H : GoMap Str) (R : GoMap Status)
    (hc : ∀ k ∈ H.keys, CleanPath k = k) (p : Str) :
    (H.foldl (fun r e => r.set (CleanPath e.1) Status.Deleted) R).get p
      = if p ∈ H.keys then some .Deleted else R.get p := by
  induction H generalizing R with
  | nil => simp [GoMap.keys_nil]
  | cons e H ih =>
    obtain ⟨k0, w0⟩ := e
    have hk : CleanPath k0 = k0 := hc k0 (by simp [GoMap.keys_cons])
    have hc2 : ∀ k ∈ GoMap.keys H, CleanPath k = k := fun k hk2 =>
      hc k (by simp [GoMap.keys_cons, hk2])
    simp only [List.foldl_cons, ih _ hc2, GoMap.keys_cons, List.mem_cons, hk]
    by_cases h1 : p ∈ GoMap.keys H
    · simp [h1]
    · by_cases h2 : p = k0
      · subst h2
        simp [h1, GoMap.get_set_self]
      · have h3 : k0 ≠ p := fun x => h2 x.symm
        simp [h1, h2, GoMap.get_set_other _ _ _ _ h3]

theorem GoMap.get_mem {V : Type} (m : GoMap V) (p : Str) (v : V) (h : m.get p = some v) :
    (p, v) ∈ m := by
  induction m with
  | nil => simp [GoMap.get] at h
  | cons e m ih =>
    obtain ⟨k0, v0⟩ := e
    by_cases hk : k0 = p
    · simp [GoMap.get, hk] at h
      simp [hk, h]
    · simp [GoMap.get, hk] at h
      simp [ih h]

theorem Blobify_error (sha : Bytes → Str) (path : Str) (root : List (Str × Node)) (st : Store)
    (f : Fault) (h : Blobify sha path root st = .error f) : f = .panicSlice ∨ f = .outside := by
  unfold Blobify at h
  split at h
  · cases h
  · unfold WriteBlob GetHashPath at h
    simp only [] at h
    split at h
    · next f1 heq =>
      split at heq
      · cases heq; cases h; exact Or.inl rfl
      · split at heq
        · cases heq; cases h; exact Or.inr rfl
        · cases heq
    · cases h

theorem satisfyUnstagedChanges_no_panicState (sha : Bytes → Str) (predicate : Str → Bool)
    (root : List (Str × Node)) (l : List (Str × Status))
    (hl : ∀ e ∈ l, e.2 = .Modified ∨ e.2 = .Deleted) (staged : GoMap Str) (st : Store) :
    (satisfyUnstagedChanges sha predicate root l staged st).1 ≠ .error .panicState := by
  induction l generalizing staged st with
  | nil => simp [satisfyUnstagedChanges]
  | cons e l ih =>
    obtain ⟨k, state⟩ := e
    have hl2 : ∀ e ∈ l, e.2 = .Modified ∨ e.2 = .Deleted := fun e he =>
      hl e (List.mem_cons_of_mem _ he)
    have hs : state = .Modified ∨ state = .Deleted := hl (k, state) (List.mem_cons_self _ _)
    unfold satisfyUnstagedChanges
    by_cases hp : predicate k = true
    · simp only [hp, not_true_eq_false, if_false]
      rcases hs with hs | hs
      · subst hs
        simp only []
        cases hb : Blobify sha k root st with
        | error f =>
          rcases Blobify_error sha k root st f hb with hf | hf <;> subst hf <;> simp
        | ok r =>
          obtain ⟨hash, st1⟩ := r
          simp only []
          by_cases hh : hash = []
          · simp [hh]
          · simp only [hh, if_false]
            exact ih hl2 _ _
      · subst hs
        exact ih hl2 _ _
    · simp only [hp, not_false_eq_true, if_true]
      exact ih hl2 _ _

theorem GoMap.set_values {V : Type} (P : V → Prop) (m : GoMap V) (k : Str) (v : V)
    (hm : ∀ e ∈ m, P e.2) (hv : P v) : ∀ e ∈ m.set k v, P e.2 := by
  induction m with
  | nil =>
    intro e he
    simp [GoMap.set] at he
    subst he
    exact hv
  | cons a m ih =>
    obtain ⟨k0, v0⟩ := a
    intro e he
    by_cases h : k0 = k
    · simp only [GoMap.set, h, if_true, List.mem_cons] at he
      rcases he with he | he
      · subst he; exact hv
      · exact hm e (List.mem_cons_of_mem _ he)
    · simp only [GoMap.set, h, if_false, List.mem_cons] at he
      rcases he with he | he
      · subst he; exact hm _ (List.mem_cons_self _ _)
      · exact ih (fun e he => hm e (List.mem_cons_of_mem _ he)) e he

theorem unstagedVisit_fold_values (sha : Bytes → Str) (W : GoMap Bytes) (acc0 : UnstagedAcc)
    (h0 : ∀ e ∈ acc0.unstagedResult, e.2 = Status.Modified ∨ e.2 = Status.Deleted) :
    ∀ e ∈ (W.foldl (fun a e => unstagedVisit sha e.1 e.2 a) acc0).unstagedResult,
      e.2 = Status.Modified ∨ e.2 = Status.Deleted := by
  induction W generalizing acc0 with
  | nil => exact h0
  | cons a W ih =>
    obtain ⟨k, d⟩ := a
    simp only [List.foldl_cons]
    apply ih
    unfold unstagedVisit
    split
    · exact h0
    · split
      · exact GoMap.set_values (fun x => x = Status.Modified ∨ x = Status.Deleted) _ _ _ h0
          (Or.inl rfl)
      · exact h0

theorem deleted_fold_values (H : GoMap Str) (R : GoMap Status)
    (h0 : ∀ e ∈ R, e.2 = Status.Modified ∨ e.2 = Status.Deleted) :
    ∀ e ∈ H.foldl (fun r e => r.set (CleanPath e.1) Status.Deleted) R,
      e.2 = Status.Modified ∨ e.2 = Status.Deleted := by
  induction H generalizing R with
  | nil => exact h0
  | cons a H ih =>
    simp only [List.foldl_cons]
    exact ih _ (GoMap.set_values (fun x => x = Status.Modified ∨ x = Status.Deleted) _ _ _ h0
      (Or.inr rfl))

theorem unstagedEntries_root (sha : Bytes → Str) :
    (es : List (Str × Node)) → (acc : UnstagedAcc) → wellNamedRoot es = true →
      unstagedEntries sha ".".toList es acc
        = (filesOf ".".toList (outsideLit es)).foldl (fun a e => unstagedVisit sha e.1 e.2 a) acc
  | [], acc, _ => by simp [unstagedEntries, outsideLit, filesOf]
  | (name, n) :: rest, acc, h => by
    simp only [wellNamedRoot, Bool.and_eq_true] at h
    by_cases hn : name = ".lit".toList
    · subst hn
      have hc : CleanPath (joinPath ".".toList ".lit".toList) = ".lit".toList := by decide
      have ho : outsideLit ((".lit".toList, n) :: rest) = outsideLit rest := by
        simp [outsideLit]
      cases n with
      | file data => simp at h
      | dir entries =>
        rw [ho]
        simp only [unstagedEntries, unstagedWalk, hc, if_true]
        exact unstagedEntries_root sha rest acc h.2
    · have ho : outsideLit ((name, n) :: rest) = (name, n) :: outsideLit rest := by
        unfold outsideLit
        rw [List.filter_cons_of_pos]
        simpa using hn
      simp only [hn, if_false] at h
      rw [ho]
      simp only [unstagedEntries, filesOf, List.foldl_append]
      rw [unstagedWalk_files sha (joinPath ".".toList name) n acc h.1]
      exact unstagedEntries_root sha rest _ h.2

/-- C7, as the claim states it, fails for an index with a key that is not a
clean path.  With the file `a.txt` in the working tree and the index
`./a.txt`, the walk finds no entry for `a.txt` and lists it as untracked, and
the loop over the entries that are left reports CleanPath("./a.txt"), the path
`a.txt`, as Deleted: a path that is in the working tree and is not a key of
the index. -/
theorem C7_unclean_index_key_misclassified :
    UnstagedChanges demoSha [("./a.txt".toList, demoSha [104])] [("a.txt".toList, .file [104])]
      = .ok ([("a.txt".toList, Status.Deleted)], ["a.txt".toList],
             [("./a.txt".toList, demoSha [104])])
    ∧ GoMap.get (filesOf ".".toList [("a.txt".toList, Node.file [104])]) "a.txt".toList
        = some [104]
    ∧ GoMap.get [("./a.txt".toList, demoSha [104])] "a.txt".toList = none
    ∧ unstagedClass demoSha (some [104]) none = none := by
  refine ⟨rfl, rfl, rfl, rfl⟩

/-- C7 (amended): for every repository directory whose listing is well named
(the entry `.lit` is a directory, the other paths are clean and pairwise
distinct) and every index `I` whose keys are distinct clean paths,
UnstagedChanges returns without error a pair (drift, untracked) and leaves the
argument map as it was.  With W the files outside `.lit`: untracked holds
exactly the paths of W that have no entry in `I`; drift holds Modified exactly
for the paths in both whose file hashes differently from the index entry,
Deleted exactly for the paths in `I` without a file in W, and no other entry,
so every code in drift is Modified or Deleted and satisfyUnstagedChanges,
called on drift with any predicate, never reaches `panic(state)`. -/
theorem C7_UnstagedChanges_classification (sha : Bytes → Str) (I : GoMap Str)
    (root : List (Str × Node))
    (hI : I.keys.Nodup) (hIc : ∀ p ∈ I.keys, CleanPath p = p)
    (hW : wellNamedRoot root = true)
    (hN : (GoMap.keys (filesOf ".".toList (outsideLit root))).Nodup) :
    ∃ (drift : GoMap Status) (untracked : List Str),
      UnstagedChanges sha I root = .ok (drift, untracked, I)
      ∧ (∀ p, p ∈ untracked ↔
          (GoMap.get (filesOf ".".toList (outsideLit root)) p).isSome ∧ I.get p = none)
      ∧ (∀ p, drift.get p
          = unstagedClass sha (GoMap.get (filesOf ".".toList (outsideLit root)) p) (I.get p))
      ∧ (∀ p st, drift.get p = some st → st = .Modified ∨ st = .Deleted)
      ∧ (∀ (predicate : Str → Bool) (staged : GoMap Str) (st : Store),
          (satisfyUnstagedChanges sha predicate root drift staged st).1 ≠ .error .panicState) := by
  have hwalk : unstagedWalk sha ".".toList (.dir root)
        { staged := copyMap I, untracked := [], unstagedResult := [] }
      = ((filesOf ".".toList (outsideLit root)).foldl (fun a e => unstagedVisit sha e.1 e.2 a)
          { staged := I, untracked := [], unstagedResult := [] }, false) := by
    have hne : CleanPath ".".toList ≠ ".lit".toList := by decide
    simp only [unstagedWalk, hne, if_false, copyMap_eq I hI]
    rw [unstagedEntries_root sha root _ hW]
  have hf := unstagedVisit_fold sha (filesOf ".".toList (outsideLit root)) hN
    { staged := I, untracked := [], unstagedResult := [] }
  have hv := unstagedVisit_fold_values sha (filesOf ".".toList (outsideLit root))
    { staged := I, untracked := [], unstagedResult := [] } (by simp)
  generalize (filesOf ".".toList (outsideLit root)).foldl
    (fun a e => unstagedVisit sha e.1 e.2 a)
    { staged := I, untracked := [], unstagedResult := [] } = F at hwalk hf hv
  simp only [] at hf
  refine ⟨F.staged.foldl (fun r e => r.set (CleanPath e.1) Status.Deleted) F.unstagedResult,
    F.untracked, ?_, ?_, ?_, ?_, ?_⟩
  · simp only [UnstagedChanges, hwalk]
  · intro p
    simpa using (hf p).2.1
  · intro p
    have hc : ∀ k ∈ GoMap.keys F.staged, CleanPath k = k := by
      intro k hk
      rw [← GoMap.get_isSome_iff, (hf k).1] at hk
      apply hIc
      rw [← GoMap.get_isSome_iff]
      split at hk
      · simp at hk
      · exact hk
    rw [get_foldl_set_clean _ _ hc]
    have hmem : ∀ (m : GoMap Str), p ∈ GoMap.keys m ↔ (m.get p).isSome :=
      fun m => (GoMap.get_isSome_iff m p).symm
    simp only [hmem, (hf p).1, (hf p).2.2]
    cases GoMap.get (filesOf ".".toList (outsideLit root)) p <;> cases I.get p <;>
      simp [unstagedClass, GoMap.get]
  · intro p st hp
    exact deleted_fold_values _ _ hv (p, st) (GoMap.get_mem _ _ _ hp)
  · intro predicate staged st
    exact satisfyUnstagedChanges_no_panicState sha predicate root _
      (deleted_fold_values _ _ hv) staged st

/-- C7 (amended) at a repository directory with `.lit`, an edited, an unchanged
and an untracked file, and an index with a deleted path: the files under
`.lit` are not classified. -/
theorem C7_UnstagedChanges_classification_witness :
    UnstagedChanges demoSha trackedIndex editedRootWithLit
      = .ok ([("a.txt".toList, Status.Modified), ("gone.txt".toList, Status.Deleted)],
             ["sub/u.txt".toList], trackedIndex)
    ∧ filesOf ".".toList (outsideLit editedRootWithLit)
      = [("a.txt".toList, [119]), ("same.txt".toList, [115]), ("sub/u.txt".toList, [117])]
    ∧ ∃ (drift : GoMap Status) (untracked : List Str),
      UnstagedChanges demoSha trackedIndex editedRootWithLit = .ok (drift, untracked, trackedIndex)
      ∧ (∀ p, p ∈ untracked ↔
          (GoMap.get (filesOf ".".toList (outsideLit editedRootWithLit)) p).isSome
            ∧ trackedIndex.get p = none)
      ∧ (∀ p, drift.get p
          = unstagedClass demoSha (GoMap.get (filesOf ".".toList (outsideLit editedRootWithLit)) p)
              (trackedIndex.get p))
      ∧ (∀ p st, drift.get p = some st → st = .Modified ∨ st = .Deleted)
      ∧ (∀ (predicate : Str → Bool) (staged : GoMap Str) (st : Store),
          (satisfyUnstagedChanges demoSha predicate editedRootWithLit drift staged st).1
            ≠ .error .panicState) :=
  ⟨rfl, rfl, C7_UnstagedChanges_classification demoSha trackedIndex editedRootWithLit
    (by decide) (by decide) (by decide) (by decide)⟩

/-! ## The keys Stage writes -/

theorem GoMap.keys_set_forall {V : Type} (P : Str → Prop) (m : GoMap V) (k : Str) (v : V)
    (hm : ∀ p ∈ m.keys, P p) (hk : P k) : ∀ p ∈ (m.set k v).keys, P p := by
  rw [GoMap.keys_set]
  split
  · exact hm
  · intro p hp
    rw [List.mem_append] at hp
    rcases hp with hp | hp
    · exact hm p hp
    · simp at hp
      rw [hp]
      exact hk

theorem GoMap.keys_delete_forall {V : Type} (P : Str → Prop) (m : GoMap V) (k : Str)
    (hm : ∀ p ∈ m.keys, P p) : ∀ p ∈ (m.delete k).keys, P p := by
  intro p hp
  apply hm
  rw [← GoMap.get_isSome_iff] at hp ⊢
  rw [GoMap.get_delete] at hp
  split at hp
  · simp at hp
  · exact hp

mutual
theorem Node.files_clean (path : Str) :
    (n : Node) → Node.wellNamed path n = true → ∀ e ∈ Node.files path n, CleanPath e.1 = e.1
  | .file data, h => by
    simp only [Node.wellNamed, Bool.and_eq_true, decide_eq_true_eq] at h
    intro e he
    simp only [Node.files, List.mem_singleton] at he
    rw [he]
    exact h.1.1
  | .dir entries, h => by
    simp only [Node.wellNamed, Bool.and_eq_true, decide_eq_true_eq] at h
    intro e he
    simp only [Node.files] at he
    exact filesOf_clean path entries h.2 e he
theorem filesOf_clean (dir : Str) :
    (es : List (Str × Node)) → wellNamedEntries dir es = true →
      ∀ e ∈ filesOf dir es, CleanPath e.1 = e.1
  | [], _ => by simp [filesOf]
  | (name, n) :: rest, h => by
    simp only [wellNamedEntries, Bool.and_eq_true] at h
    intro e he
    simp only [filesOf, List.mem_append] at he
    rcases he with he | he
    · exact Node.files_clean (joinPath dir name) n h.1 e he
    · exact filesOf_clean dir rest h.2 e he
end

theorem filesOf_root_clean :
    (root : List (Str × Node)) → wellNamedRoot root = true →
      ∀ e ∈ filesOf ".".toList (outsideLit root), CleanPath e.1 = e.1
  | [], _ => by simp [outsideLit, filesOf]
  | (name, n) :: rest, h => by
    simp only [wellNamedRoot, Bool.and_eq_true] at h
    by_cases hn : name = ".lit".toList
    · have ho : outsideLit ((name, n) :: rest) = outsideLit rest := by
        subst hn
        simp [outsideLit]
      rw [ho]
      exact filesOf_root_clean rest h.2
    · have ho : outsideLit ((name, n) :: rest) = (name, n) :: outsideLit rest := by
        unfold outsideLit
        rw [List.filter_cons_of_pos]
        simpa using hn
      simp only [hn, if_false] at h
      rw [ho]
      intro e he
      simp only [filesOf, List.mem_append] at he
      rcases he with he | he
      · exact Node.files_clean _ n h.1 e he
      · exact filesOf_root_clean rest h.2 e he

theorem unstagedVisit_fold_keys (P : Str → Prop) (sha : Bytes → Str) (W : GoMap Bytes)
    (hW : ∀ e ∈ W, P e.1) (acc0 : UnstagedAcc)
    (h1 : ∀ p ∈ acc0.staged.keys, P p) (h2 : ∀ p ∈ acc0.untracked, P p)
    (h3 : ∀ p ∈ acc0.unstagedResult.keys, P p) :
    (∀ p ∈ (W.foldl (fun a e => unstagedVisit sha e.1 e.2 a) acc0).staged.keys, P p)
    ∧ (∀ p ∈ (W.foldl (fun a e => unstagedVisit sha e.1 e.2 a) acc0).untracked, P p)
    ∧ (∀ p ∈ (W.foldl (fun a e => unstagedVisit sha e.1 e.2 a) acc0).unstagedResult.keys, P p) := by
  induction W generalizing acc0 with
  | nil => exact ⟨h1, h2, h3⟩
  | cons a W ih =>
    obtain ⟨k, d⟩ := a
    have hk : P k := hW (k, d) (List.mem_cons_self _ _)
    have hW2 : ∀ e ∈ W, P e.1 := fun e he => hW e (List.mem_cons_of_mem _ he)
    simp only [List.foldl_cons]
    apply ih hW2
    · unfold unstagedVisit
      split
      · exact GoMap.keys_delete_forall P _ _ h1
      · split
        · exact GoMap.keys_delete_forall P _ _ h1
        · exact GoMap.keys_delete_forall P _ _ h1
    · unfold unstagedVisit
      split
      · intro p hp
        simp only [List.mem_append, List.mem_singleton] at hp
        rcases hp with hp | hp
        · exact h2 p hp
        · rw [hp]; exact hk
      · split
        · exact h2
        · exact h2
    · unfold unstagedVisit
      split
      · exact h3
      · split
        · exact GoMap.keys_set_forall P _ _ _ h3 hk
        · exact h3

theorem deleted_fold_keys (H : GoMap Str) (R : GoMap Status)
    (hH : ∀ p ∈ H.keys, CleanPath p = p) (hR : ∀ p ∈ R.keys, CleanPath p = p) :
    ∀ p ∈ (H.foldl (fun r e => r.set (CleanPath e.1) Status.Deleted) R).keys, CleanPath p = p := by
  induction H generalizing R with
  | nil => exact hR
  | cons a H ih =>
    obtain ⟨k, v⟩ := a
    have hk : CleanPath k = k := hH k (by simp [GoMap.keys_cons])
    have hH2 : ∀ p ∈ GoMap.keys H, CleanPath p = p := fun p hp =>
      hH p (by rw [GoMap.keys_cons]; exact List.mem_cons_of_mem _ hp)
    simp only [List.foldl_cons]
    apply ih _ hH2
    exact GoMap.keys_set_forall (fun p => CleanPath p = p) _ _ _ hR (by rw [hk]; exact hk)

theorem satisfyUnstagedChanges_keys (P : Str → Prop) (sha : Bytes → Str) (predicate : Str → Bool)
    (root : List (Str × Node)) (l : List (Str × Status)) (hl : ∀ e ∈ l, P e.1)
    (staged : GoMap Str) (st : Store) (hs : ∀ p ∈ staged.keys, P p) :
    ∀ p ∈ (satisfyUnstagedChanges sha predicate root l staged st).2.1.keys, P p := by
  induction l generalizing staged st with
  | nil => simpa [satisfyUnstagedChanges] using hs
  | cons e l ih =>
    obtain ⟨k, state⟩ := e
    have hk : P k := hl (k, state) (List.mem_cons_self _ _)
    have hl2 : ∀ e ∈ l, P e.1 := fun e he => hl e (List.mem_cons_of_mem _ he)
    unfold satisfyUnstagedChanges
    split
    · exact ih hl2 _ _ hs
    · split
      · split
        · exact hs
        · split
          · exact hs
          · exact ih hl2 _ _ (GoMap.keys_set_forall P _ _ _ hs hk)
      · exact ih hl2 _ _ (GoMap.keys_delete_forall P _ _ hs)
      · exact hs

theorem satisfyUntracked_keys (P : Str → Prop) (sha : Bytes → Str) (predicate : Str → Bool)
    (root : List (Str × Node)) (l : List Str) (hl : ∀ p ∈ l, P p)
    (staged : GoMap Str) (st : Store) (hs : ∀ p ∈ staged.keys, P p) :
    ∀ p ∈ (satisfyUntracked sha predicate root l staged st).2.1.keys, P p := by
  induction l generalizing staged st with
  | nil => simpa [satisfyUntracked] using hs
  | cons k l ih =>
    have hk : P k := hl k (List.mem_cons_self _ _)
    have hl2 : ∀ p ∈ l, P p := fun p hp => hl p (List.mem_cons_of_mem _ hp)
    unfold satisfyUntracked
    split
    · split
      · exact hs
      · split
        · exact hs
        · exact ih hl2 _ _ (GoMap.keys_set_forall P _ _ _ hs hk)
    · exact ih hl2 _ _ hs

/-- Stage keeps the keys of the index clean: when the keys of the index are
distinct clean paths and the directory listing is well named, every key of the
index after Stage is a clean path, whatever the call returns. -/
theorem Stage_keeps_clean_keys (sha : Bytes → Str) (path : Str) (s : Repo) (I I1 : GoMap Str)
    (hs : s.index = some I) (hI : I.keys.Nodup) (hIc : ∀ p ∈ I.keys, CleanPath p = p)
    (hW : wellNamedRoot s.root = true) (h1 : (Stage sha path s).2.index = some I1) :
    ∀ p ∈ I1.keys, CleanPath p = p := by
  have hwalk : unstagedWalk sha ".".toList (.dir s.root)
        { staged := copyMap I, untracked := [], unstagedResult := [] }
      = ((filesOf ".".toList (outsideLit s.root)).foldl (fun a e => unstagedVisit sha e.1 e.2 a)
          { staged := I, untracked := [], unstagedResult := [] }, false) := by
    have hne : CleanPath ".".toList ≠ ".lit".toList := by decide
    simp only [unstagedWalk, hne, if_false, copyMap_eq I hI]
    rw [unstagedEntries_root sha s.root _ hW]
  have hk := unstagedVisit_fold_keys (fun p => CleanPath p = p) sha
    (filesOf ".".toList (outsideLit s.root)) (filesOf_root_clean s.root hW)
    { staged := I, untracked := [], unstagedResult := [] } hIc (by simp) (by simp [GoMap.keys])
  generalize (filesOf ".".toList (outsideLit s.root)).foldl
    (fun a e => unstagedVisit sha e.1 e.2 a)
    { staged := I, untracked := [], unstagedResult := [] } = F at hwalk hk
  have hdrift := deleted_fold_keys F.staged F.unstagedResult hk.1 hk.2.2
  have hU : UnstagedChanges sha I s.root
      = .ok (F.staged.foldl (fun r e => r.set (CleanPath e.1) Status.Deleted) F.unstagedResult,
             F.untracked, I) := by
    simp only [UnstagedChanges, hwalk]
  have hl : ∀ e ∈ F.staged.foldl (fun r e => r.set (CleanPath e.1) Status.Deleted)
      F.unstagedResult, CleanPath e.1 = e.1 := fun e he =>
    hdrift e.1 (List.mem_map.2 ⟨e, he, rfl⟩)
  have h2 := satisfyUnstagedChanges_keys (fun p => CleanPath p = p) sha (IsSubPath path) s.root
    _ hl I s.objects hIc
  unfold Stage at h1
  simp only [Staged, hs, hU] at h1
  split at h1
  · simp only [hs, Option.some.injEq] at h1
    rw [← h1]; exact hIc
  · next staged2 st1 heq =>
    rw [heq] at h2
    have h3 := satisfyUntracked_keys (fun p => CleanPath p = p) sha (IsSubPath path) s.root
      F.untracked hk.2.1 staged2 st1 h2
    split at h1
    · simp only [hs, Option.some.injEq] at h1
      rw [← h1]; exact hIc
    · next staged3 st2 heq2 =>
      rw [heq2] at h3
      split at h1
      · simp only [hs, Option.some.injEq] at h1
        rw [← h1]; exact hIc
      · simp only [SetStaged, Option.some.injEq] at h1
        rw [← h1]; exact h3

/-! ## Branches and HEAD: theorems -/

theorem ReadAsCommit_length {st : Store} {c : Str} {com : Commit}
    (h : ReadAsCommit st c = .ok com) : c ≠ [] := by
  intro h0
  subst h0
  simp [ReadAsCommit, GetHashPath, FolderCharacters, utf8] at h

theorem HashIsCommit_of_read {st : Store} {c : Str} {com : Commit}
    (h : ReadAsCommit st c = .ok com) : HashIsCommit st c = .ok true := by
  simp [HashIsCommit, h]

theorem GoMap.set_set {V : Type} (m : GoMap V) (k : Str) (v : V) :
    (m.set k v).set k v = m.set k v := by
  induction m with
  | nil => simp [GoMap.set]
  | cons e m ih =>
    obtain ⟨k0, v0⟩ := e
    by_cases hk0 : k0 = k
    · simp [GoMap.set, hk0]
    · simp [GoMap.set, hk0, ih]

theorem refTarget_entry_ne_nil {name : Str} (h : refTarget name = .entry) : name ≠ [] := by
  intro h0
  rw [h0] at h
  simp [refTarget] at h

/-- ReadBranch of a file name whose ref record exists returns the Reference stored. -/
theorem ReadBranch_entry (s : Repo) (name r : Str) (ht : refTarget name = .entry)
    (hr : s.heads.get name = some r) : ReadBranch s name = .ok r := by
  simp [ReadBranch, BranchExists, ht, hr]

/-- C11, as the claim states it, fails for a HEAD whose Location is empty:
NudgeHead returns nil at its guard `if headContent.Location == ""` and advances
nothing.  Here SetHeadTo wrote the HEAD {Detached: false, Location: ""} and
`c1c1` is the hash of a stored Commit: after NudgeHead("c1c1") the repository
is as before, no ref stores the commit and HeadCommit returns the empty hash. -/
theorem C11_NudgeHead_skips_empty_Location :
    SetHeadTo { Detached := false, Location := [] } { committedRepo with heads := [] }
      = (.ok (), emptyLocationRepo)
    ∧ HashIsCommit emptyLocationRepo.objects "c1c1".toList = .ok true
    ∧ NudgeHead "c1c1".toList emptyLocationRepo = (.ok (), emptyLocationRepo)
    ∧ emptyLocationRepo.heads = []
    ∧ ReadBranch emptyLocationRepo [] = .error (.err .os)
    ∧ HeadCommit emptyLocationRepo = .ok [] := by
  refine ⟨rfl, rfl, rfl, rfl, rfl, rfl⟩

/-- C11 (amended): let `c` be the hash of a stored Commit.  When the Location
of HEAD is empty, NudgeHead(c) returns nil and changes nothing.  When HEAD
names a location and the name of the branch of an attached HEAD is a file name
(its entry in `.lit/refs/heads` is a ref record or is missing), NudgeHead(c)
returns nil; if HEAD is attached to the branch `b`, whether or not `b` has a
ref record, afterwards ReadBranch(b) returns `c` and HEAD is still attached to
`b`; if HEAD is detached, afterwards HEAD is detached to `c`; in both cases
HeadCommit returns `c` afterwards and no other ref record changes. -/
theorem C11_NudgeHead_advances_HEAD (s : Repo) (c : Str) (com : Commit) (hc : HeadContent)
    (hh : s.head = some hc)
    (hb : hc.Detached = false → hc.Location ≠ [] → refTarget hc.Location = .entry)
    (hcom : ReadAsCommit s.objects c = .ok com) :
    (hc.Location = [] → NudgeHead c s = (.ok (), s))
    ∧ (hc.Location ≠ [] →
        (NudgeHead c s).1 = .ok ()
        ∧ (hc.Detached = false →
            ReadBranch (NudgeHead c s).2 hc.Location = .ok c
            ∧ (NudgeHead c s).2.head = some hc)
        ∧ (hc.Detached = true →
            (NudgeHead c s).2.head = some { Detached := true, Location := c })
        ∧ HeadCommit (NudgeHead c s).2 = .ok c
        ∧ (∀ b, (hc.Detached = true ∨ b ≠ hc.Location) →
            (NudgeHead c s).2.heads.get b = s.heads.get b)) := by
  constructor
  · intro hl
    simp [NudgeHead, ReadHead, hh, hl]
  intro hl
  have hcne : c ≠ [] := ReadAsCommit_length hcom
  have hic := HashIsCommit_of_read hcom
  obtain ⟨det, loc⟩ := hc
  simp only at hl hb
  cases det with
  | true =>
    have hn : NudgeHead c s
        = (.ok (), { s with head := some { Detached := true, Location := c } }) := by
      simp [NudgeHead, ReadHead, hh, hl, SetHeadTo, hic]
    rw [hn]
    refine ⟨rfl, by simp, by simp, ?_, by simp⟩
    simp [HeadCommit, ReadHead, hcne]
  | false =>
    have ht : refTarget loc = .entry := hb rfl hl
    have hn : ∃ hs, NudgeHead c s = (.ok (), hs) ∧ hs.head = s.head
        ∧ hs.heads = s.heads.set loc c := by
      cases hx : (s.heads.get loc).isSome with
      | true =>
        exact ⟨{ s with heads := s.heads.set loc c, headsDir := true },
          by simp [NudgeHead, ReadHead, hh, hl, BranchExists, ht, hx, SetBranchTo], rfl, rfl⟩
      | false =>
        refine ⟨{ s with heads := (s.heads.set loc c).set loc c, headsDir := true },
          ?_, rfl, ?_⟩
        · simp [NudgeHead, ReadHead, hh, hl, BranchExists, ht, hx, SetBranchTo, CreateBranchTo,
            hic]
        · exact GoMap.set_set _ _ _
    obtain ⟨hs, hn, h1, h2⟩ := hn
    have hg : hs.heads.get loc = some c := by rw [h2]; exact GoMap.get_set_self _ _ _
    have hrb : ReadBranch hs loc = .ok c := ReadBranch_entry hs loc c ht hg
    rw [hn]
    refine ⟨rfl, ?_, by simp, ?_, ?_⟩
    · intro _
      exact ⟨hrb, by rw [h1, hh]⟩
    · simp [HeadCommit, ReadHead, h1, hh, hl, hrb]
    · intro b hb2
      rcases hb2 with hb2 | hb2
      · simp at hb2
      · simp only at hb2
        rw [h2]
        exact GoMap.get_set_other _ _ _ _ (fun x => hb2 x.symm)

/-- C11 (amended) at a repository before its first commit (attached to `main`,
no ref record) whose store already holds a commit, and at that repository with
a HEAD whose Location is empty. -/
theorem C11_NudgeHead_advances_HEAD_witness :
    ((NudgeHead "c1c1".toList { committedRepo with heads := [] }).1 = .ok ()
      ∧ (false = false →
          ReadBranch (NudgeHead "c1c1".toList { committedRepo with heads := [] }).2 "main".toList
              = .ok "c1c1".toList
          ∧ (NudgeHead "c1c1".toList { committedRepo with heads := [] }).2.head
              = some { Detached := false, Location := "main".toList })
      ∧ (false = true →
          (NudgeHead "c1c1".toList { committedRepo with heads := [] }).2.head
            = some { Detached := true, Location := "c1c1".toList })
      ∧ HeadCommit (NudgeHead "c1c1".toList { committedRepo with heads := [] }).2
          = .ok "c1c1".toList
      ∧ (∀ b, (false = true ∨ b ≠ "main".toList) →
          (NudgeHead "c1c1".toList { committedRepo with heads := [] }).2.heads.get b
            = GoMap.get [] b))
    ∧ NudgeHead "c1c1".toList emptyLocationRepo = (.ok (), emptyLocationRepo) :=
  ⟨(C11_NudgeHead_advances_HEAD { committedRepo with heads := [] } "c1c1".toList
      { Name := "first".toList, CommitTree := "t1t1".toList, Parents := [[]], Time := 0 }
      { Detached := false, Location := "main".toList } rfl (fun _ _ => by decide) rfl).2
      (by decide),
   (C11_NudgeHead_advances_HEAD emptyLocationRepo "c1c1".toList
      { Name := "first".toList, CommitTree := "t1t1".toList, Parents := [[]], Time := 0 }
      { Detached := false, Location := [] } rfl (fun _ h => absurd rfl h) rfl).1 rfl⟩

/-- Where the ref of the branch stores the hash of a stored Commit,
DeleteBranchSafe does what the specification says: the call returns nil, the
ref is gone, HEAD is detached to the commit and HeadCommit returns the hash it
returned before. -/
theorem DeleteBranchSafe_detaches (s : Repo) (name r : Str) (com : Commit)
    (hh : s.head = some { Detached := false, Location := name })
    (ht : refTarget name = .entry)
    (hr : s.heads.get name = some r) (hcom : ReadAsCommit s.objects r = .ok com) :
    (DeleteBranchSafe name s).1 = .ok ()
    ∧ BranchExists (DeleteBranchSafe name s).2 name = .ok false
    ∧ (DeleteBranchSafe name s).2.head = some { Detached := true, Location := r }
    ∧ HeadCommit s = .ok r
    ∧ HeadCommit (DeleteBranchSafe name s).2 = .ok r := by
  have hne : name ≠ [] := refTarget_entry_ne_nil ht
  have hrne : r ≠ [] := ReadAsCommit_length hcom
  have hic := HashIsCommit_of_read hcom
  have hrb : ReadBranch s name = .ok r := ReadBranch_entry s name r ht hr
  have h1 : HeadCommit s = .ok r := by simp [HeadCommit, ReadHead, hh, hne, hrb]
  have hdel : DeleteBranchSafe name s
      = (.ok (), { s with head := some { Detached := true, Location := r },
                          heads := s.heads.delete name }) := by
    simp [DeleteBranchSafe, ReadHead, hh, h1, SetHeadTo, hic, DeleteBranch, BranchExists, ht, hr]
  rw [hdel]
  refine ⟨rfl, ?_, rfl, h1, ?_⟩
  · simp [BranchExists, ht, GoMap.get_delete]
  · simp [HeadCommit, ReadHead, hrne]

/-- C12 (defect of DeleteBranchSafe): the value SetHeadTo returns is dropped.
When HEAD is attached to the existing branch `name` and the ref of the branch
stores a string that is not the hash of a stored Commit, SetHeadTo returns
ErrNotFound and leaves HEAD as it is; DeleteBranchSafe goes on, deletes the ref
and returns nil.  Afterwards HEAD is still attached to `name`, a branch that no
longer exists, and HeadCommit, which returned the stored string before the call,
returns ErrNotFound. -/
theorem C12_DeleteBranchSafe_leaves_HEAD_attached (s : Repo) (name r : Str)
    (hh : s.head = some { Detached := false, Location := name })
    (ht : refTarget name = .entry)
    (hr : s.heads.get name = some r) (hnc : HashIsCommit s.objects r = .ok false) :
    BranchExists s name = .ok true
    ∧ HeadCommit s = .ok r
    ∧ (DeleteBranchSafe name s).1 = .ok ()
    ∧ BranchExists (DeleteBranchSafe name s).2 name = .ok false
    ∧ (DeleteBranchSafe name s).2.head = some { Detached := false, Location := name }
    ∧ HeadCommit (DeleteBranchSafe name s).2 = .error (.err .refsNotFound) := by
  have hne : name ≠ [] := refTarget_entry_ne_nil ht
  have hrb : ReadBranch s name = .ok r := ReadBranch_entry s name r ht hr
  have h1 : HeadCommit s = .ok r := by simp [HeadCommit, ReadHead, hh, hne, hrb]
  have hdel : DeleteBranchSafe name s = (.ok (), { s with heads := s.heads.delete name }) := by
    simp [DeleteBranchSafe, ReadHead, hh, h1, SetHeadTo, hnc, DeleteBranch, BranchExists, ht, hr]
  rw [hdel]
  refine ⟨by simp [BranchExists, ht, hr], h1, rfl, ?_, hh, ?_⟩
  · simp [BranchExists, ht, GoMap.get_delete]
  · simp [HeadCommit, ReadHead, hh, hne, ReadBranch, BranchExists, ht, GoMap.get_delete]

/-- C12 at the repository reached by InitializeRepo, Commit("first") and
NudgeHead("zz"), three calls that return nil: DeleteBranchSafe("main") returns
nil and leaves HEAD attached to `main`, whose ref is gone. -/
theorem C12_DeleteBranchSafe_leaves_HEAD_attached_witness :
    (index.Commit demoSha id "first".toList 1 freshRepo).1 = .ok (HashCommit demoSha firstCommit)
    ∧ NudgeHead "zz".toList (index.Commit demoSha id "first".toList 1 freshRepo).2
        = (.ok (), strayRefRepo)
    ∧ strayRefRepo.heads = [("main".toList, "zz".toList)]
    ∧ BranchExists strayRefRepo "main".toList = .ok true
    ∧ HeadCommit strayRefRepo = .ok "zz".toList
    ∧ (DeleteBranchSafe "main".toList strayRefRepo).1 = .ok ()
    ∧ BranchExists (DeleteBranchSafe "main".toList strayRefRepo).2 "main".toList = .ok false
    ∧ (DeleteBranchSafe "main".toList strayRefRepo).2.head
        = some { Detached := false, Location := "main".toList }
    ∧ HeadCommit (DeleteBranchSafe "main".toList strayRefRepo).2 = .error (.err .refsNotFound) :=
  ⟨rfl, rfl, rfl,
   C12_DeleteBranchSafe_leaves_HEAD_attached strayRefRepo "main".toList "zz".toList
     rfl (by decide) rfl rfl⟩

/-! ## ExpandHash, Stage, Commit and log at concrete inputs -/

/-- C14 (defects of ExpandHash): inside the callback the local `hash`, the
hash of the visited file, shadows the argument, so the test
`strings.HasPrefix(info.Name(), hash[FolderCharacters:])` compares the file
name with itself: for the argument `abff` the commit `abcdef` is returned,
which does not start with `abff`.  A file that is not a commit returns
`filepath.SkipDir`, which ends the walk of the directory: with the blob `ab00`
stored next to the commit `abcdef`, the argument `abcd` yields the empty hash.
An argument shorter than two characters panics at `hash[:FolderCharacters]`. -/
theorem C14_ExpandHash_prefix_not_compared :
    ExpandHash oneCommitStore "abff".toList = .ok "abcdef".toList
    ∧ hasPrefix "abcdef".toList (toLower "abff".toList) = false
    ∧ HashIsCommit blobFirstStore "abcdef".toList = .ok true
    ∧ hasPrefix "abcdef".toList (toLower "abcd".toList) = true
    ∧ ExpandHash blobFirstStore "abcd".toList = .ok []
    ∧ ExpandHash oneCommitStore "a".toList = .error .panicSlice := by
  refine ⟨rfl, by decide, rfl, by decide, rfl, rfl⟩

/-- C15 (defect of IsSubPath): the relative path is searched for the substring
`..`, so a file name that holds two dots in a row is taken for a step out of
the directory.  With `dir/a..b` and `dir/c` untracked, Stage("dir") returns nil
and the persisted index holds `dir/c` only. -/
theorem C15_Stage_skips_name_with_two_dots :
    filesOf ".".toList dotDotRepo.root = [("dir/a..b".toList, [1]), ("dir/c".toList, [2])]
    ∧ Rel "dir".toList "dir/a..b".toList = some "a..b".toList
    ∧ IsSubPath "dir".toList "dir/a..b".toList = false
    ∧ (Stage demoSha "dir".toList dotDotRepo).1 = .ok ()
    ∧ (Stage demoSha "dir".toList dotDotRepo).2.index = some [("dir/c".toList, demoSha [2])] := by
  refine ⟨by decide, by decide, by decide, rfl, by decide⟩

/-- C18 (defect of generateTreeNode, the one of C1): with `a/x` and `a/y`
staged, Commit succeeds but the tree of the new commit holds `a/y` only, so
right after the commit StagedChanges reports `a/x` as Created. -/
theorem C18_staged_drift_after_commit :
    (index.Commit demoSha id "first".toList 1 siblingsRepo).1.toOption.isSome = true
    ∧ (index.Commit demoSha id "first".toList 1 siblingsRepo).2.index = some twoSiblings
    ∧ StagedChanges twoSiblings (index.Commit demoSha id "first".toList 1 siblingsRepo).2
        = .ok [("a/x".toList, Status.Created)] := by
  refine ⟨rfl, rfl, rfl⟩

/-- C19 (defect of Commit and GetHashPath): a commit whose Parents hold the
empty string, the parent entry Commit writes for the first commit, makes
recursivelyAddCommitsToSlice call ReadAsCommit("") after it appended the commit,
and GetHashPath panics at `hash[:FolderCharacters]`. -/
theorem C19_log_panics_at_root_parent (st : Store) (fuel : Nat) (h : Str) (com : Commit)
    (out : List (Commit × Str))
    (hr : ReadAsCommit st h = .ok com) (hp : com.Parents = [[]]) :
    recursivelyAddCommitsToSlice st (fuel + 2) h out
      = (out ++ [(com, h)], some .panicSlice) := by
  have h0 : ReadAsCommit st [] = .error .panicSlice := by
    simp [ReadAsCommit, GetHashPath, FolderCharacters, utf8]
  simp only [recursivelyAddCommitsToSlice, hr, hp, addCommitsLoop, h0]

/-- C19 after InitializeRepo and one Commit: the log of HEAD panics. -/
theorem C19_log_panics_at_root_parent_witness :
    (index.Commit demoSha id "first".toList 1 freshRepo).1
      = .ok (demoSha (utf8 (commitText
          { Name := "first".toList, CommitTree := demoSha [], Parents := [[]], Time := 1 })))
    ∧ HeadCommit (index.Commit demoSha id "first".toList 1 freshRepo).2
      = .ok (demoSha (utf8 (commitText
          { Name := "first".toList, CommitTree := demoSha [], Parents := [[]], Time := 1 })))
    ∧ recursivelyAddCommitsToSlice (index.Commit demoSha id "first".toList 1 freshRepo).2.objects
        (0 + 2)
        (demoSha (utf8 (commitText
          { Name := "first".toList, CommitTree := demoSha [], Parents := [[]], Time := 1 }))) []
      = ([] ++ [({ Name := "first".toList, CommitTree := demoSha [], Parents := [[]], Time := 1 },
            demoSha (utf8 (commitText
              { Name := "first".toList, CommitTree := demoSha [], Parents := [[]], Time := 1 })))],
         some .panicSlice) :=
  ⟨rfl, rfl, C19_log_panics_at_root_parent _ 0 _ _ [] rfl rfl⟩

/-! ## Checkout target resolution: theorems -/

/-- C17 (defect of checkoutLocation): with detach requested the error of
ReadBranch is returned at once and ExpandHash is never called.  For the full
hash of a stored commit that is not a branch name, ExpandHash finds the commit,
and without detach checkoutLocation hands switchTo the target Detached(hash);
with detach it returns the not-found error of ReadBranch and leaves the
repository as it was. -/
theorem C17_detach_with_commit_hash_not_found :
    ExpandHash committedRepo.objects "c1c1".toList = .ok "c1c1".toList
    ∧ HashIsCommit committedRepo.objects "c1c1".toList = .ok true
    ∧ BranchExists committedRepo "c1c1".toList = .ok false
    ∧ checkoutLocation demoSha "c1c1".toList false committedRepo
        = switchTo demoSha { Detached := true, Location := "c1c1".toList } committedRepo
    ∧ checkoutLocation demoSha "c1c1".toList true committedRepo
        = (.error (.err .refsNotFound), committedRepo) := by
  refine ⟨rfl, rfl, rfl, rfl, rfl⟩

/-! ## Staging: theorems -/

theorem splitSlash_ne_nil (s : Str) : splitSlash s ≠ [] := by
  induction s with
  | nil => simp [splitSlash]
  | cons c cs ih =>
    simp only [splitSlash]
    split
    · split <;> simp
    · split <;> simp

theorem splitSlash_dotdot_slash (q : Str) :
    splitSlash ("..".toList ++ "/".toList ++ q) = "..".toList :: splitSlash q := by
  have h := splitSlash_ne_nil q
  cases hq : splitSlash q with
  | nil => exact absurd hq h
  | cons seg rest =>
    simp [splitSlash, hq]

theorem joinSlash_dotdot (l : List Str) :
    joinSlash ("..".toList :: l) = "..".toList ∨
      ∃ q, joinSlash ("..".toList :: l) = "..".toList ++ "/".toList ++ q := by
  cases l with
  | nil => left; rfl
  | cons a l => right; exact ⟨joinSlash (a :: l), rfl⟩

theorem cleanElems_ups (rooted : Bool) (xs : List Str) :
    ∀ (out : List Str) (ups : Nat), ups ≤ (cleanElems rooted xs out ups).2 := by
  induction xs with
  | nil => intro out ups; simp [cleanElems]
  | cons e xs ih =>
    intro out ups
    simp only [cleanElems]
    split
    · exact ih _ _
    · split
      · split
        · exact ih _ _
        · split
          · exact ih _ _
          · exact Nat.le_trans (Nat.le_succ _) (ih _ _)
      · exact ih _ _

theorem containsDotDot_dotdot (q : Str) : containsDotDot ('.' :: '.' :: q) = true := by
  simp [containsDotDot]

/-- Cleaning a relative path whose first element is `..` leaves a path that holds `..`. -/
theorem containsDotDot_clean (l : List Str) :
    containsDotDot (CleanPath (joinSlash ("..".toList :: l))) = true := by
  have key : ∀ p : Str, (∃ xs, splitSlash p = "..".toList :: xs) → p.head? = some '.' →
      containsDotDot (CleanPath p) = true := by
    intro p hx hh
    obtain ⟨xs, hxs⟩ := hx
    have hp : p ≠ [] := by intro h0; rw [h0] at hh; simp at hh
    have hroot : ¬ (p.head? = some '/') := by rw [hh]; simp
    have hups := cleanElems_ups false xs [] 1
    have hstep : cleanElems false ("..".toList :: xs) [] 0 = cleanElems false xs [] 1 := by
      simp [cleanElems]
    simp only [CleanPath, hp, if_false, hroot, decide_False, hxs, hstep]
    generalize cleanElems false xs [] 1 = r at hups
    obtain ⟨o, n⟩ := r
    simp only at hups ⊢
    obtain ⟨m, rfl⟩ : ∃ m, n = m + 1 := ⟨n - 1, by omega⟩
    simp only [List.replicate_succ, List.cons_append]
    rcases joinSlash_dotdot (List.replicate m "..".toList ++ o.reverse) with h | ⟨q, h⟩
    · rw [h]; decide
    · rw [h]
      simp [containsDotDot]
  rcases joinSlash_dotdot l with h | ⟨q, h⟩
  · rw [h]; decide
  · rw [h]
    exact key _ ⟨_, splitSlash_dotdot_slash q⟩ (by simp)

theorem relElems_cases (bs ts r : List Str) (h : relElems bs ts = some r) :
    bs.isPrefixOf ts = true ∨ ∃ rest, r = "..".toList :: rest := by
  induction bs generalizing ts with
  | nil => left; simp
  | cons b bs ih =>
    cases ts with
    | nil =>
      right
      simp only [relElems, Option.some.injEq] at h
      exact ⟨_, by rw [← h, List.replicate_succ]⟩
    | cons t ts =>
      simp only [relElems] at h
      by_cases hbt : b = t
      · simp only [hbt, if_true] at h
        rcases ih ts h with h1 | h1
        · left; simp [List.isPrefixOf, hbt, h1]
        · right; exact h1
      · simp only [hbt, if_false] at h
        split at h
        · cases h
        · right
          simp only [Option.some.injEq] at h
          exact ⟨_, by rw [← h, List.replicate_succ, List.cons_append]⟩

/-- A path IsSubPath accepts is equal to or nested under the base. -/
theorem isUnder_of_IsSubPath (base sub : Str) (h : IsSubPath base sub = true) :
    isUnder base sub = true := by
  unfold IsSubPath at h
  cases hr : Rel base sub with
  | none => simp [hr] at h
  | some relative =>
    simp only [hr, Bool.not_eq_true'] at h
    unfold Rel at hr
    unfold isUnder
    by_cases h1 : CleanPath sub = CleanPath base
    · simp [h1]
    · simp only [h1, if_false] at hr
      split at hr
      · cases hr
      · next hroot =>
        simp only [ne_eq, Decidable.not_not] at hroot
        simp only [Option.map_eq_some'] at hr
        obtain ⟨r, hr1, hr2⟩ := hr
        rcases relElems_cases _ _ _ hr1 with hp | ⟨rest, hrest⟩
        · rw [Bool.or_eq_true, Bool.and_eq_true]
          right
          exact ⟨by simpa using hroot, hp⟩
        · subst hrest
          rw [← hr2, containsDotDot_clean] at h
          cases h
theorem satisfyUnstagedChanges_none (sha : Bytes → Str) (predicate : Str → Bool)
    (root : List (Str × Node)) (l : List (Str × Status))
    (h : ∀ e ∈ l, predicate e.1 = false) (staged : GoMap Str) (st : Store) :
    satisfyUnstagedChanges sha predicate root l staged st = (.ok (), staged, st) := by
  induction l with
  | nil => rfl
  | cons e l ih =>
    obtain ⟨k, state⟩ := e
    have hk : predicate k = false := h (k, state) (List.mem_cons_self _ _)
    simp only [satisfyUnstagedChanges, hk, Bool.false_eq_true, not_false_eq_true, if_true]
    exact ih (fun e he => h e (List.mem_cons_of_mem _ he))

theorem satisfyUntracked_none (sha : Bytes → Str) (predicate : Str → Bool)
    (root : List (Str × Node)) (l : List Str)
    (h : ∀ p ∈ l, predicate p = false) (staged : GoMap Str) (st : Store) :
    satisfyUntracked sha predicate root l staged st = (.ok (), staged, st) := by
  induction l with
  | nil => rfl
  | cons p l ih =>
    have hk : predicate p = false := h p (List.mem_cons_self _ _)
    simp only [satisfyUntracked, hk, Bool.false_eq_true, if_false]
    exact ih (fun e he => h e (List.mem_cons_of_mem _ he))

/-- C16: when no changed path (Modified or Deleted in the unstaged drift) and
no untracked path is equal to or nested under `path`, Stage(path) returns an
error value and leaves the repository, the persisted index included, exactly
as it was. -/
theorem C16_Stage_without_match_is_error (sha : Bytes → Str) (path : Str) (s : Repo)
    (h : ∀ staged drift untracked staged1, Staged s = .ok staged →
      UnstagedChanges sha staged s.root = .ok (drift, untracked, staged1) →
      (∀ p ∈ GoMap.keys drift, isUnder path p = false)
      ∧ (∀ p ∈ untracked, isUnder path p = false)) :
    ∃ e, Stage sha path s = (.error (.err e), s) := by
  unfold Stage
  cases hs : Staged s with
  | error f =>
    unfold Staged at hs
    split at hs
    · cases hs
      exact ⟨_, rfl⟩
    · cases hs
  | ok staged =>
    obtain ⟨drift, untracked, staged1, hU⟩ :
        ∃ d u s1, UnstagedChanges sha staged s.root = .ok (d, u, s1) := ⟨_, _, _, rfl⟩
    obtain ⟨hd, hu⟩ := h staged drift untracked staged1 hs hU
    have hsub : ∀ p, isUnder path p = false → IsSubPath path p = false := by
      intro p hp
      cases hi : IsSubPath path p with
      | false => rfl
      | true => rw [isUnder_of_IsSubPath path p hi] at hp; cases hp
    have hd2 : ∀ e ∈ drift, IsSubPath path e.1 = false := fun e he =>
      hsub _ (hd e.1 (List.mem_map.2 ⟨e, he, rfl⟩))
    have hu2 : ∀ p ∈ untracked, IsSubPath path p = false := fun p hp => hsub _ (hu p hp)
    have hany : (drift.any (fun e => IsSubPath path e.1) || untracked.any (IsSubPath path))
        = false := by
      rw [Bool.or_eq_false_iff]
      constructor
      · rw [List.any_eq_false]
        intro e he
        simp [hd2 e he]
      · rw [List.any_eq_false]
        intro p hp
        simp [hu2 p hp]
    simp only [hU, satisfyUnstagedChanges_none sha _ _ drift hd2,
      satisfyUntracked_none sha _ _ untracked hu2, hany, if_true]
    exact ⟨_, rfl⟩

/-- C16 at the repository whose `a.txt` is staged and unchanged, with an
untracked file elsewhere: staging `a.txt` again, or a path that does not exist,
is an error and changes nothing. -/
theorem C16_Stage_without_match_is_error_witness :
    UnstagedChanges demoSha [("a.txt".toList, demoSha [104])] untrackedRepo.root
      = .ok ([], ["sub/u.txt".toList], [("a.txt".toList, demoSha [104])])
    ∧ isUnder "a.txt".toList "sub/u.txt".toList = false
    ∧ isUnder "sub".toList "sub/u.txt".toList = true
    ∧ (∃ e, Stage demoSha "a.txt".toList untrackedRepo = (.error (.err e), untrackedRepo))
    ∧ (∃ e, Stage demoSha "nothere".toList untrackedRepo = (.error (.err e), untrackedRepo)) :=
  ⟨rfl, by decide, by decide,
   C16_Stage_without_match_is_error demoSha "a.txt".toList untrackedRepo
     (by intro staged drift untracked staged1 hS hU; cases hS; cases hU; decide),
   C16_Stage_without_match_is_error demoSha "nothere".toList untrackedRepo
     (by intro staged drift untracked staged1 hS hU; cases hS; cases hU; decide)⟩

/-! ## Reachable states: theorems -/

/-- Hash(data) hashes the content of a file and HashCommit hashes the printed
commit, and both objects are stored at the path of the hash: staging a file
whose content is that text replaces the stored commit by a blob.  In the state
reached from InitializeRepo by Commit("first") and DeleteBranchSafe("main")
HEAD is detached to the first commit; Stage("f") returns nil, and afterwards
the Location of HEAD is not the hash of a stored Commit. -/
theorem Stage_blob_replaces_commit :
    InitializeRepo shadowDir = .ok shadowStart
    ∧ detachedRepo.head = some { Detached := true, Location := HashCommit demoSha firstCommit }
    ∧ HashIsCommit detachedRepo.objects (HashCommit demoSha firstCommit) = .ok true
    ∧ (Stage demoSha "f".toList detachedRepo).1 = .ok ()
    ∧ (Stage demoSha "f".toList detachedRepo).2.head
        = some { Detached := true, Location := HashCommit demoSha firstCommit }
    ∧ HashIsCommit (Stage demoSha "f".toList detachedRepo).2.objects
        (HashCommit demoSha firstCommit) = .ok false
    ∧ Reachable demoSha (Stage demoSha "f".toList detachedRepo).2 := by
  refine ⟨rfl, rfl, rfl, rfl, rfl, rfl, ?_⟩
  exact Reachable.step _ _
    (Reachable.step _ _
      (Reachable.step _ _ (Reachable.init shadowDir shadowStart rfl)
        (Step.commit shadowStart id "first".toList 1 _ rfl))
      (Step.deleteBranch _ "main".toList rfl))
    (Step.stage _ "f".toList rfl)

/-- C13 (defect of DeleteBranchSafe, the one of C12): the state reached from
InitializeRepo by the calls Commit("first"), NudgeHead("zz") and
DeleteBranchSafe("main"), which all return nil, has HEAD attached to `main`,
a branch that existed before the last call and whose ref record is gone: HEAD
is neither attached to a branch whose ref record exists nor detached to the
hash of a stored Commit. -/
theorem C13_reachable_HEAD_attached_to_deleted_branch :
    Reachable demoSha danglingRepo
    ∧ BranchExists strayRefRepo "main".toList = .ok true
    ∧ DeleteBranchSafe "main".toList strayRefRepo = (.ok (), danglingRepo)
    ∧ danglingRepo.head = some { Detached := false, Location := "main".toList }
    ∧ BranchExists danglingRepo "main".toList = .ok false
    ∧ ¬ HeadNeverDangling danglingRepo := by
  refine ⟨?_, rfl, rfl, rfl, rfl, ?_⟩
  · exact Reachable.step _ _
      (Reachable.step _ _
        (Reachable.step _ _ (Reachable.init [] freshRepo rfl)
          (Step.commit freshRepo id "first".toList 1 _ rfl))
        (Step.nudge _ "zz".toList rfl))
      (Step.deleteBranch _ "main".toList rfl)
  · rintro ⟨hc, hh, h | h⟩
    · have h1 : danglingRepo.head = some { Detached := false, Location := "main".toList } := rfl
      rw [h1] at hh
      cases hh
      obtain ⟨_, r, hr⟩ := h
      have h2 : ReadBranch danglingRepo "main".toList = .error (.err .refsNotFound) := rfl
      rw [h2] at hr
      cases hr
    · have h1 : danglingRepo.head = some { Detached := false, Location := "main".toList } := rfl
      rw [h1] at hh
      cases hh
      simp at h

end Lit
